import Mathlib

/-!
# DeepSearchStack — verification of spec claims against the source

Shallow embedding of the parts of the DeepSearchStack repository that the
frozen claims C1–C10 talk about, together with theorems settling each claim.

Conventions:
* Python floats and wall-clock instants are modelled as rationals (`ℚ`);
  no floating-point rounding is relevant to any claim.
* Python strings are modelled as Lean `String`s, lists as Lean `List`s.
* Stateful Python objects become Lean structures with explicit state passing;
  every method that mutates `self` returns the new state.
* Opaque third-party library calls (sklearn's TF-IDF cosine, `urlparse`,
  `html.unescape`) are abstracted as function parameters; everything written
  in the repository itself is translated concretely.
-/

namespace DeepSearchStack

/-! ## Token bucket (`services/llm_gateway/services/rate_limiter.py`)

class `TokenBucket`: fields `capacity`, `refill_rate`, `tokens`,
`last_refill`; methods `consume` and `_refill`.
-/

structure TokenBucket where
  capacity : ℚ
  refill_rate : ℚ
  tokens : ℚ
  last_refill : ℚ
  deriving DecidableEq, Repr

namespace TokenBucket

/-- `TokenBucket.__init__(capacity, refill_rate)` at creation instant `now`:
`self.tokens = capacity`, `self.last_refill = time.time()`. -/
def init (capacity refill_rate now : ℚ) : TokenBucket :=
  { capacity := capacity, refill_rate := refill_rate
    tokens := capacity, last_refill := now }

/-- `TokenBucket._refill` at instant `now`:
`elapsed = now - last_refill`; `tokens = min(capacity, tokens + elapsed *
refill_rate)`; `last_refill = now`. -/
def refill (b : TokenBucket) (now : ℚ) : TokenBucket :=
  { b with
    tokens := min b.capacity (b.tokens + (now - b.last_refill) * b.refill_rate)
    last_refill := now }

/-- `TokenBucket.consume(tokens)` at instant `now`: first `_refill()`, then
deduct and return `True` if enough tokens are present, else return `False`.
Returns the post-call bucket state and the boolean result. -/
def consume (b : TokenBucket) (now : ℚ) (tokens : ℚ) : TokenBucket × Bool :=
  let b := b.refill now
  if tokens ≤ b.tokens then ({ b with tokens := b.tokens - tokens }, true)
  else (b, false)

/-- A sequence of pure refills (no consumption) at the given instants. -/
def refills (b : TokenBucket) (ts : List ℚ) : TokenBucket :=
  ts.foldl refill b

@[simp] theorem refills_nil (b : TokenBucket) : b.refills [] = b := rfl

@[simp] theorem refills_cons (b : TokenBucket) (t : ℚ) (ts : List ℚ) :
    b.refills (t :: ts) = (b.refill t).refills ts := rfl

@[simp] theorem refill_capacity (b : TokenBucket) (t : ℚ) :
    (b.refill t).capacity = b.capacity := rfl

@[simp] theorem refill_rate_eq (b : TokenBucket) (t : ℚ) :
    (b.refill t).refill_rate = b.refill_rate := rfl

@[simp] theorem refill_last (b : TokenBucket) (t : ℚ) :
    (b.refill t).last_refill = t := rfl

theorem refill_tokens (b : TokenBucket) (t : ℚ) :
    (b.refill t).tokens
      = min b.capacity (b.tokens + (t - b.last_refill) * b.refill_rate) := rfl

/-- Clamping composes: adding a second non-negative increment after a clamp is
the same as clamping the total increment. -/
theorem min_add_min (C x a c : ℚ) (hc : 0 ≤ c) :
    min C (min C (x + a) + c) = min C (x + a + c) := by
  rcases le_total (x + a) C with h | h
  · rw [min_eq_right h]
  · rw [min_eq_left h, min_eq_left (by linarith), min_eq_left (by linarith)]

/-- Folding `_refill` over monotone instants collapses to a single refill over
the whole interval. -/
theorem refills_snoc_tokens (ts : List ℚ) (b : TokenBucket) (t₂ : ℚ)
    (hr : 0 ≤ b.refill_rate)
    (hchain : List.Chain (· ≤ ·) b.last_refill (ts ++ [t₂])) :
    (b.refills (ts ++ [t₂])).tokens
      = min b.capacity (b.tokens + (t₂ - b.last_refill) * b.refill_rate) := by
  induction ts generalizing b with
  | nil => rfl
  | cons t ts ih =>
    rw [List.cons_append, List.chain_cons] at hchain
    obtain ⟨hlt, hchain⟩ := hchain
    have ht2 : t ≤ t₂ := by
      have hpw := List.chain_iff_pairwise.mp hchain
      exact List.rel_of_pairwise_cons hpw (by simp)
    have hstep := ih (b.refill t) (by simpa using hr) (by simpa using hchain)
    have hunfold : b.refills (t :: (ts ++ [t₂])) = (b.refill t).refills (ts ++ [t₂]) := rfl
    rw [List.cons_append, hunfold, hstep, refill_capacity, refill_rate_eq,
      refill_last, refill_tokens,
      min_add_min _ _ _ _ (mul_nonneg (sub_nonneg.mpr ht2) hr)]
    ring_nf

end TokenBucket

/-- **C4** — For every token bucket with capacity `C` and refill rate `r ≥ 0`,
and any instants `t₁ ≤ t₂` with no consumption between them (only refills, at
monotone instants), the token count after refilling at `t₂` satisfies
`tokens(t₂) = min(C, tokens(t₁) + r·(t₂ − t₁))`; moreover the count never
exceeds `C` after any refill. -/
theorem C4_token_bucket_refill_law (b : TokenBucket) (ts : List ℚ) (t₂ : ℚ)
    (hr : 0 ≤ b.refill_rate)
    (hchain : List.Chain (· ≤ ·) b.last_refill (ts ++ [t₂])) :
    ((b.refills ts).refill t₂).tokens
        = min b.capacity (b.tokens + b.refill_rate * (t₂ - b.last_refill))
      ∧ (∀ (b₀ : TokenBucket) (t : ℚ), (b₀.refill t).tokens ≤ b₀.capacity) := by
  constructor
  · have h := TokenBucket.refills_snoc_tokens ts b t₂ hr hchain
    rw [TokenBucket.refills, List.foldl_append] at h
    simpa [TokenBucket.refills, mul_comm] using h
  · intro b₀ t
    exact min_le_left _ _

/-- Witness for C4 at a concrete bucket: capacity 10, rate 1, tokens 0 at
instant 0, refilled at 1, 2 and finally 3, yielding 3 tokens. -/
theorem C4_token_bucket_refill_law_witness :
    (((TokenBucket.mk 10 1 0 0).refills [1, 2]).refill 3).tokens = 3 := by
  have h := C4_token_bucket_refill_law (TokenBucket.mk 10 1 0 0) [1, 2] 3
    (by norm_num)
    (by simp [List.chain_cons]; norm_num)
  rw [h.1]
  norm_num

/-- **C5 (counterexample)** — The claim "a denied `consume` mutates no field of
the bucket" is false: a bucket with capacity 10, rate 1, 0 tokens and
`last_refill = 0`, asked for 5 tokens at instant 2, is denied, yet the call
leaves `tokens = 2` and `last_refill = 2`: two fields changed. -/
theorem C5_consume_denied_counterexample :
    (TokenBucket.mk 10 1 0 0).consume 2 5 = (TokenBucket.mk 10 1 2 2, false)
      ∧ TokenBucket.mk 10 1 2 2 ≠ TokenBucket.mk 10 1 0 0 := by
  constructor
  · show (if (5 : ℚ) ≤ min 10 (0 + (2 - 0) * 1) then _ else _) = _
    norm_num [TokenBucket.consume, TokenBucket.refill]
  · intro h
    have := congrArg TokenBucket.tokens h
    norm_num at this

/-- **C5 (amended)** — If, after the refill `consume` performs at the start of
the call, fewer than `n` tokens are present, then `consume(n)` returns `false`
and deducts nothing; but the denied call still performs the refill, updating
`tokens` and `last_refill`. When no time has elapsed since the last refill
(and the bucket respects its capacity bound), the denied call leaves the
bucket unchanged. -/
theorem C5_consume_denied_no_deduction (b : TokenBucket) (now n : ℚ)
    (h : (b.refill now).tokens < n) :
    b.consume now n = (b.refill now, false)
      ∧ (now = b.last_refill → b.tokens ≤ b.capacity →
          b.consume now n = (b, false)) := by
  have hmain : b.consume now n = (b.refill now, false) := by
    unfold TokenBucket.consume
    rw [if_neg (not_le.mpr h)]
  refine ⟨hmain, fun hnow htok => ?_⟩
  have hb : b.refill now = b := by
    subst hnow
    simp [TokenBucket.refill, min_eq_right htok]
  rw [hmain, hb]

/-- Witness for C5 (amended) at the counterexample bucket: the denied call
returns `false` and the post-state is exactly the refilled bucket. -/
theorem C5_consume_denied_no_deduction_witness :
    (TokenBucket.mk 10 1 0 0).consume 2 5
      = ((TokenBucket.mk 10 1 0 0).refill 2, false) :=
  (C5_consume_denied_no_deduction (TokenBucket.mk 10 1 0 0) 2 5
    (by norm_num [TokenBucket.refill])).1

/-! ## Text chunking (`services/deepsearch/core/engine.py`,
`DeepSearchEngine._split_into_chunks`)

```python
chunks = []
start = 0
while start < len(text):
    end = start + chunk_size
    chunk = text[start:end]
    chunks.append(chunk)
    start = end - overlap
return chunks
```

The text is a list of characters; Python ints are `ℤ` (the cursor `start`
can go negative when `overlap > chunk_size`). The loop is translated with
explicit fuel because its termination is exactly what claim C10 is about.
-/

/-- Python index normalisation for a slice bound: negative indices count from
the end (clamped below at 0), non-negative ones are clamped at `n`. -/
def pyIndex (n : ℕ) (i : ℤ) : ℕ :=
  if i < 0 then ((n : ℤ) + i).toNat else min i.toNat n

/-- Python `text[start:stop]` (step 1). -/
def pySlice (l : List Char) (start stop : ℤ) : List Char :=
  (l.take (pyIndex l.length stop)).drop (pyIndex l.length start)

/-- Fuel-indexed translation of the `while` loop of `_split_into_chunks`;
`none` means the fuel ran out before the loop exited. -/
def splitFuel (text : List Char) (chunk_size overlap : ℤ) :
    ℕ → ℤ → List (List Char) → Option (List (List Char))
  | fuel, start, acc =>
    if start < (text.length : ℤ) then
      match fuel with
      | 0 => none
      | fuel + 1 =>
          splitFuel text chunk_size overlap fuel (start + chunk_size - overlap)
            (acc ++ [pySlice text start (start + chunk_size)])
    else some acc

/-- The start offsets the loop visits, for a positive step `s`
(`s = chunk_size - overlap`); mirrors the loop's cursor. -/
def splitStarts (len s : ℕ) (hs : 0 < s) (start : ℕ) : List ℕ :=
  if start < len then start :: splitStarts len s hs (start + s) else []
termination_by len - start
decreasing_by omega

/-- The chunk list `_split_into_chunks` returns in the terminating case
`overlap < chunk_size`: the slice `text[start : start + chunk_size]` at each
visited offset. -/
def splitIntoChunks (text : List Char) (chunk_size overlap : ℕ)
    (h : overlap < chunk_size) : List (List Char) :=
  (splitStarts text.length (chunk_size - overlap) (by omega) 0).map
    (fun st => (text.drop st).take chunk_size)

theorem pySlice_of_lt (l : List Char) (st cs : ℕ) (hst : st < l.length) :
    pySlice l st (st + (cs : ℤ)) = (l.drop st).take cs := by
  have h1 : pyIndex l.length st = st := by
    rw [pyIndex, if_neg (by omega), Int.toNat_natCast]
    omega
  have h2 : pyIndex l.length ((st : ℤ) + (cs : ℤ)) = min (st + cs) l.length := by
    rw [pyIndex, if_neg (by omega),
      show (st : ℤ) + (cs : ℤ) = ((st + cs : ℕ) : ℤ) by omega,
      Int.toNat_natCast]
  rw [pySlice, h1, h2, List.drop_take, List.take_eq_take]
  have hlen := List.length_drop st l
  omega

/-- With `overlap < chunk_size` the loop computes exactly the chunks at the
`splitStarts` offsets, given enough fuel. -/
theorem splitFuel_eq_splitIntoChunks (text : List Char) (cs ov : ℕ)
    (h : ov < cs) :
    ∀ (fuel start : ℕ) (acc : List (List Char)),
      text.length ≤ start + fuel * (cs - ov) →
      splitFuel text cs ov fuel start acc
        = some (acc ++ (splitStarts text.length (cs - ov) (by omega) start).map
            (fun st => (text.drop st).take cs)) := by
  intro fuel
  induction fuel with
  | zero =>
    intro start acc hb
    rw [splitFuel, splitStarts]
    have hge : ¬ ((start : ℤ) < (text.length : ℤ)) := by omega
    rw [if_neg hge, if_neg (by omega)]
    simp
  | succ fuel ih =>
    intro start acc hb
    rw [splitFuel, splitStarts]
    by_cases hlt : start < text.length
    · rw [if_pos (by omega), if_pos hlt]
      have hcast : (start : ℤ) + (cs : ℤ) - (ov : ℤ)
          = ((start + (cs - ov) : ℕ) : ℤ) := by
        push_cast [Nat.cast_sub (le_of_lt h)]
        ring
      rw [hcast, pySlice_of_lt text start cs hlt,
        ih (start + (cs - ov)) _ (by rw [Nat.succ_mul] at hb; omega)]
      simp
    · rw [if_neg (by omega), if_neg hlt]
      simp

/-- With `chunk_size ≤ overlap` the cursor never advances past 0, so on
non-empty text the loop never exits, whatever the fuel. -/
theorem splitFuel_none_of_le (text : List Char) (cs ov : ℤ) (h : cs ≤ ov)
    (hlen : 1 ≤ text.length) :
    ∀ (fuel : ℕ) (start : ℤ) (acc : List (List Char)), start ≤ 0 →
      splitFuel text cs ov fuel start acc = none := by
  intro fuel
  induction fuel with
  | zero =>
    intro start acc hst
    rw [splitFuel, if_pos (by omega)]
  | succ fuel ih =>
    intro start acc hst
    rw [splitFuel, if_pos (by omega)]
    exact ih _ _ (by omega)

theorem splitStarts_head? (len s : ℕ) (hs : 0 < s) (start : ℕ) :
    (splitStarts len s hs start).head?
      = if start < len then some start else none := by
  rw [splitStarts]
  split <;> simp

/-- Consecutive visited offsets differ by exactly the step `s`. -/
theorem splitStarts_chain (len s : ℕ) (hs : 0 < s) (start : ℕ) :
    List.Chain' (fun a b => b = a + s) (splitStarts len s hs start) := by
  induction start using splitStarts.induct len s hs with
  | case1 start hlt ih =>
    rw [splitStarts, if_pos hlt, List.chain'_cons']
    refine ⟨fun y hy => ?_, ih⟩
    rw [splitStarts_head? len s hs (start + s)] at hy
    by_cases h : start + s < len
    · rw [if_pos h] at hy
      simpa using hy.symm
    · rw [if_neg h] at hy
      simp at hy
  | case2 start hge =>
    rw [splitStarts, if_neg hge]
    exact List.chain'_nil

/-- Every position `p` with `start ≤ p < len` falls inside the window of some
visited offset: there is `st` in the list with `st ≤ p < st + s`. -/
theorem splitStarts_cover (len s : ℕ) (hs : 0 < s) (start : ℕ) :
    ∀ p, start ≤ p → p < len →
      ∃ st ∈ splitStarts len s hs start, st ≤ p ∧ p < st + s := by
  induction start using splitStarts.induct len s hs with
  | case1 start hlt ih =>
    intro p hsp hp
    rw [splitStarts, if_pos hlt]
    by_cases hwin : p < start + s
    · exact ⟨start, by simp, hsp, hwin⟩
    · obtain ⟨st, hmem, h1, h2⟩ := ih p (by omega) hp
      exact ⟨st, by simp [hmem], h1, h2⟩
  | case2 start hge =>
    intro p hsp hp
    omega

/-- **C10** — For non-empty `text` and `chunk_size > 0`, `overlap ≥ 0`:
the loop of `_split_into_chunks` terminates iff `chunk_size > overlap`;
under that precondition the computed chunk list is `splitIntoChunks`
(the slice `text[st : st + chunk_size]` at each visited offset), every
character of the text appears in at least one returned chunk, and
consecutive chunk start offsets differ by exactly `chunk_size − overlap`. -/
theorem C10_split_into_chunks (text : List Char) (cs ov : ℕ)
    (htext : text ≠ []) (hcs : 0 < cs) :
    ((∃ fuel, (splitFuel text cs ov fuel 0 []).isSome) ↔ ov < cs)
      ∧ ∀ (h : ov < cs),
        (∀ fuel, text.length ≤ fuel * (cs - ov) →
          splitFuel text cs ov fuel 0 [] = some (splitIntoChunks text cs ov h))
        ∧ (∀ (p : ℕ) (hp : p < text.length),
            ∃ c ∈ splitIntoChunks text cs ov h, text.get ⟨p, hp⟩ ∈ c)
        ∧ List.Chain' (fun a b => b = a + (cs - ov))
            (splitStarts text.length (cs - ov) (by omega) 0) := by
  have hlen : 1 ≤ text.length := List.length_pos.mpr htext
  constructor
  · constructor
    · rintro ⟨fuel, hsome⟩
      by_contra hle
      rw [splitFuel_none_of_le text cs ov (by omega) hlen fuel 0 [] le_rfl]
        at hsome
      simp at hsome
    · intro h
      refine ⟨text.length, ?_⟩
      have heq := splitFuel_eq_splitIntoChunks text cs ov h text.length 0 []
        (by have := Nat.le_mul_of_pos_right text.length
              (show 0 < cs - ov by omega)
            omega)
      simp only [Nat.cast_zero] at heq
      rw [heq]
      simp
  · intro h
    refine ⟨fun fuel hfuel => ?_, fun p hp => ?_, splitStarts_chain _ _ _ _⟩
    · have heq := splitFuel_eq_splitIntoChunks text cs ov h fuel 0 [] (by omega)
      simp only [Nat.cast_zero] at heq
      rw [heq]
      simp [splitIntoChunks]
    · obtain ⟨st, hmem, h1, h2⟩ :=
        splitStarts_cover text.length (cs - ov) (by omega) 0 p (Nat.zero_le p) hp
      simp only [splitIntoChunks]
      refine ⟨(text.drop st).take cs, List.mem_map_of_mem _ hmem, ?_⟩
      have hidx : p - st < ((text.drop st).take cs).length := by
        simp only [List.length_take, List.length_drop]
        omega
      have hip : st + (p - st) = p := by omega
      rw [List.mem_iff_getElem]
      refine ⟨p - st, hidx, ?_⟩
      rw [List.getElem_take, List.getElem_drop, List.get_eq_getElem]
      simp only [hip]

/-- Witness for C10 at `text = "abc"`, `chunk_size = 2`, `overlap = 1`:
the loop terminates. -/
theorem C10_split_into_chunks_witness :
    ∃ fuel, (splitFuel ['a', 'b', 'c'] 2 1 fuel 0 []).isSome :=
  (C10_split_into_chunks ['a', 'b', 'c'] 2 1 (by decide) (by decide)).1.mpr
    (by decide)

/-! ## Search results and deduplication (`services/search-gateway`)

`common/models.py` defines the `SearchResult` schema; `main.py` defines
`SearchGateway._fuse_and_deduplicate`:

```python
return list({result.url: result for result in all_results if result.url}.values())
```

Python dicts keep keys in first-insertion order, and a repeated assignment
`d[k] = v` overwrites the stored value in place.  The dict comprehension is
modelled as a left fold over an association list with exactly those two
behaviours.
-/

structure SearchResult where
  title : String
  url : String
  description : String
  source : String
  confidence : ℚ := 1
  domain_authority : Option ℚ := none
  rank : Option ℕ := none
  deriving DecidableEq, Repr

namespace SearchGateway

/-- Python `d[k] = v`: overwrite in place if the key is present, else append. -/
def dictInsert (d : List (String × SearchResult)) (k : String)
    (v : SearchResult) : List (String × SearchResult) :=
  if d.any (fun p => p.1 = k) then
    d.map (fun p => if p.1 = k then (k, v) else p)
  else d ++ [(k, v)]

/-- The dict comprehension
`{result.url: result for result in all_results if result.url}`. -/
def dictFold (all_results : List SearchResult) : List (String × SearchResult) :=
  all_results.foldl
    (fun d r => if r.url = "" then d else dictInsert d r.url r) []

/-- `SearchGateway._fuse_and_deduplicate` — `.values()` of the comprehension. -/
def fuseAndDeduplicate (all_results : List SearchResult) : List SearchResult :=
  (dictFold all_results).map Prod.snd

/-- The last element of `rs` carrying URL `u` (Python's dict overwrite
semantics keeps exactly this occurrence). -/
def lastOcc (rs : List SearchResult) (u : String) : Option SearchResult :=
  (rs.filter (fun r => r.url == u)).getLast?

/-- Lookup in the association list modelling the dict. -/
def dictFind (d : List (String × SearchResult)) (u : String) :
    Option SearchResult :=
  (d.find? (fun p => p.1 == u)).map Prod.snd

/-- Invariant of the folded dict: every stored pair is keyed by its result's
(non-empty) URL, and keys are distinct. -/
def DictInv (d : List (String × SearchResult)) : Prop :=
  (∀ p ∈ d, p.2.url = p.1 ∧ p.1 ≠ "") ∧ (d.map Prod.fst).Nodup

theorem dictInsert_inv {d : List (String × SearchResult)} {k : String}
    {v : SearchResult} (hd : DictInv d) (hk : k ≠ "") (hv : v.url = k) :
    DictInv (dictInsert d k v) := by
  obtain ⟨hpairs, hnodup⟩ := hd
  rw [dictInsert]
  split
  · constructor
    · intro q hq
      obtain ⟨p, hp, rfl⟩ := List.mem_map.mp hq
      by_cases h : p.1 = k
      · simp only [if_pos h]
        exact ⟨hv, hk⟩
      · simp only [if_neg h]
        exact hpairs p hp
    · have : (d.map (fun p => if p.1 = k then (k, v) else p)).map Prod.fst
          = d.map Prod.fst := by
        rw [List.map_map]
        apply List.map_congr_left
        intro p _
        by_cases h : p.1 = k <;> simp [h]
      rw [this]
      exact hnodup
  · next hany =>
    constructor
    · intro q hq
      rcases List.mem_append.mp hq with h | h
      · exact hpairs q h
      · simp at h
        subst h
        exact ⟨hv, hk⟩
    · rw [List.map_append]
      simp only [List.map_cons, List.map_nil]
      rw [List.nodup_append]
      refine ⟨hnodup, List.nodup_singleton k, ?_⟩
      intro a ha hb
      simp at hb
      subst hb
      obtain ⟨p, hp, hpk⟩ := List.mem_map.mp ha
      exact hany (List.any_eq_true.mpr ⟨p, hp, by simp [hpk]⟩)

theorem dictFold_snoc (rs : List SearchResult) (r : SearchResult) :
    dictFold (rs ++ [r])
      = if r.url = "" then dictFold rs
        else dictInsert (dictFold rs) r.url r := by
  rw [dictFold, List.foldl_append]
  rfl

theorem dictFold_inv (rs : List SearchResult) : DictInv (dictFold rs) := by
  induction rs using List.reverseRecOn with
  | nil => exact ⟨by simp [dictFold], by simp [dictFold]⟩
  | append_singleton rs r ih =>
    rw [dictFold_snoc]
    split
    · exact ih
    · next hne => exact dictInsert_inv ih hne rfl

theorem find?_map_overwrite (k u : String) (v : SearchResult) (hne : u ≠ k) :
    ∀ d : List (String × SearchResult),
      (d.map (fun p => if p.1 = k then (k, v) else p)).find?
          (fun p => p.1 == u)
        = d.find? (fun p => p.1 == u) := by
  intro d
  induction d with
  | nil => rfl
  | cons p d ih =>
    by_cases h : p.1 = k
    · simp only [List.map_cons, if_pos h, List.find?_cons]
      have h1 : ((k, v).1 == u) = false := beq_eq_false_iff_ne.mpr (Ne.symm hne)
      have h2 : (p.1 == u) = false :=
        beq_eq_false_iff_ne.mpr (by rw [h]; exact Ne.symm hne)
      rw [h1, h2]
      exact ih
    · simp only [List.map_cons, if_neg h, List.find?_cons]
      cases hpu : (p.1 == u) with
      | true => rfl
      | false => exact ih

theorem find?_append_miss (u k : String) (v : SearchResult) (hne : u ≠ k) :
    ∀ d : List (String × SearchResult),
      (d ++ [(k, v)]).find? (fun p => p.1 == u)
        = d.find? (fun p => p.1 == u) := by
  intro d
  induction d with
  | nil =>
    simp only [List.nil_append, List.find?_cons, List.find?_nil]
    rw [show ((k, v).1 == u) = false from beq_eq_false_iff_ne.mpr (Ne.symm hne)]
  | cons p d ih =>
    simp only [List.cons_append, List.find?_cons]
    cases hpu : (p.1 == u) with
    | true => rfl
    | false => exact ih

theorem dictFind_insert_self (k : String) (v : SearchResult) :
    ∀ d : List (String × SearchResult),
      dictFind (dictInsert d k v) k = some v := by
  intro d
  induction d with
  | nil =>
    simp [dictFind, dictInsert, List.find?_cons]
  | cons p d ih =>
    rw [dictInsert]
    by_cases h : p.1 = k
    · rw [if_pos (by simp [List.any_cons, h])]
      simp only [List.map_cons, if_pos h]
      simp [dictFind, List.find?_cons]
    · have hany : ((p :: d).any fun p => decide (p.1 = k))
          = (d.any fun p => decide (p.1 = k)) := by
        simp [List.any_cons, h]
      rw [hany]
      rw [dictInsert] at ih
      split
      · next hd =>
        rw [if_pos hd] at ih
        simp only [List.map_cons, if_neg h]
        rw [dictFind, List.find?_cons,
          show (p.1 == k) = false by simp [h]]
        exact ih
      · next hd =>
        rw [if_neg hd] at ih
        rw [List.cons_append, dictFind, List.find?_cons,
          show (p.1 == k) = false by simp [h]]
        exact ih

theorem dictFind_insert_other (k u : String) (v : SearchResult) (hne : u ≠ k) :
    ∀ d : List (String × SearchResult),
      dictFind (dictInsert d k v) u = dictFind d u := by
  intro d
  rw [dictInsert]
  split
  · rw [dictFind, find?_map_overwrite k u v hne d]
    rfl
  · rw [dictFind, find?_append_miss u k v hne d]
    rfl

theorem dictFind_dictFold (rs : List SearchResult) (u : String) (hu : u ≠ "") :
    dictFind (dictFold rs) u = lastOcc rs u := by
  induction rs using List.reverseRecOn with
  | nil => simp [dictFold, dictFind, lastOcc]
  | append_singleton rs r ih =>
    rw [dictFold_snoc, lastOcc, List.filter_append]
    by_cases hr : r.url = ""
    · have hcond : (r.url == u) = false :=
        beq_eq_false_iff_ne.mpr (by rw [hr]; exact Ne.symm hu)
      rw [if_pos hr]
      rw [show [r].filter (fun x => x.url == u) = [] by
        simp [List.filter_cons, hcond]]
      simpa [lastOcc] using ih
    · rw [if_neg hr]
      by_cases hru : r.url = u
      · subst hru
        rw [dictFind_insert_self r.url r (dictFold rs)]
        rw [show [r].filter (fun x => x.url == r.url) = [r] by
          simp [List.filter_cons]]
        rw [List.getLast?_concat]
      · have hcond : (r.url == u) = false := beq_eq_false_iff_ne.mpr hru
        rw [dictFind_insert_other r.url u r (fun h => hru h.symm) (dictFold rs)]
        rw [show [r].filter (fun x => x.url == u) = [] by
          simp [List.filter_cons, hcond]]
        simpa [lastOcc] using ih

/-- In a dict with distinct keys, a stored pair is exactly what lookup finds. -/
theorem find?_of_mem_nodup :
    ∀ (d : List (String × SearchResult)) (k : String) (v : SearchResult),
      (d.map Prod.fst).Nodup → (k, v) ∈ d →
      d.find? (fun p => p.1 == k) = some (k, v) := by
  intro d
  induction d with
  | nil => intro k v _ h; simp at h
  | cons p d ih =>
    intro k v hnodup hmem
    simp only [List.map_cons, List.nodup_cons] at hnodup
    rw [List.find?_cons]
    rcases List.mem_cons.mp hmem with rfl | hmem
    · simp
    · have hp1 : p.1 ≠ k := by
        intro hk
        exact hnodup.1 (by
          rw [hk]
          exact List.mem_map.mpr ⟨(k, v), hmem, rfl⟩)
      rw [show (p.1 == k) = false by simp [hp1]]
      exact ih k v hnodup.2 hmem

theorem mem_of_getLast?_eq_some {l : List SearchResult} {a : SearchResult}
    (h : l.getLast? = some a) : a ∈ l := by
  obtain ⟨hne, rfl⟩ := List.mem_getLast?_eq_getLast (show a ∈ l.getLast? from h)
  exact List.getLast_mem hne

end SearchGateway

/-- **C3 (counterexample)** — The claim "deduplication keeps the first
occurrence of each URL" is false: two results sharing URL `https://a/b`,
fed in order, leave the *second* one in the output (a Python dict
comprehension overwrites on key collision). -/
theorem C3_fuse_and_deduplicate_counterexample :
    SearchGateway.fuseAndDeduplicate
        [{ title := "first", url := "https://a/b", description := "", source := "p1" },
         { title := "second", url := "https://a/b", description := "", source := "p2" }]
      = [{ title := "second", url := "https://a/b", description := "", source := "p2" }]
    ∧ ({ title := "second", url := "https://a/b", description := "", source := "p2" } : SearchResult)
      ≠ { title := "first", url := "https://a/b", description := "", source := "p1" } := by
  constructor
  · rfl
  · decide

/-- **C3 (amended)** — Deduplication keeps exactly one result per URL, namely
the **last** occurrence of that URL in the gathered list; every result with an
empty URL is discarded; the URLs of the output contain no duplicates; and a
non-empty URL appears in the output iff some gathered result carries it. -/
theorem C3_fuse_and_deduplicate (rs : List SearchResult) :
    ((SearchGateway.fuseAndDeduplicate rs).map SearchResult.url).Nodup
    ∧ (∀ r ∈ SearchGateway.fuseAndDeduplicate rs, r.url ≠ "")
    ∧ (∀ u, u ≠ "" →
        ((∃ r ∈ rs, r.url = u)
          ↔ ∃ r ∈ SearchGateway.fuseAndDeduplicate rs, r.url = u))
    ∧ (∀ r ∈ SearchGateway.fuseAndDeduplicate rs,
        SearchGateway.lastOcc rs r.url = some r) := by
  obtain ⟨hpairs, hnodup⟩ := SearchGateway.dictFold_inv rs
  have hmemout : ∀ r ∈ SearchGateway.fuseAndDeduplicate rs,
      (r.url, r) ∈ SearchGateway.dictFold rs ∧ r.url ≠ "" := by
    intro r hr
    obtain ⟨p, hp, rfl⟩ := List.mem_map.mp hr
    obtain ⟨hurl, hne⟩ := hpairs p hp
    constructor
    · rw [hurl]
      exact hp
    · rw [hurl]
      exact hne
  have hfind : ∀ r ∈ SearchGateway.fuseAndDeduplicate rs,
      SearchGateway.dictFind (SearchGateway.dictFold rs) r.url = some r := by
    intro r hr
    obtain ⟨hp, _⟩ := hmemout r hr
    rw [SearchGateway.dictFind,
      SearchGateway.find?_of_mem_nodup _ r.url r hnodup hp]
    rfl
  refine ⟨?_, fun r hr => (hmemout r hr).2, fun u hu => ⟨?_, ?_⟩, fun r hr => ?_⟩
  · have heq : (SearchGateway.fuseAndDeduplicate rs).map SearchResult.url
        = (SearchGateway.dictFold rs).map Prod.fst := by
      rw [SearchGateway.fuseAndDeduplicate, List.map_map]
      apply List.map_congr_left
      intro p hp
      exact (hpairs p hp).1
    rw [heq]
    exact hnodup
  · rintro ⟨r, hrs, rfl⟩
    have hne : (rs.filter (fun x => x.url == r.url)) ≠ [] := by
      apply List.ne_nil_of_mem (a := r)
      exact List.mem_filter.mpr ⟨hrs, by simp⟩
    obtain ⟨v, hv⟩ := Option.isSome_iff_exists.mp
      (List.getLast?_isSome.mpr hne)
    have hlast : SearchGateway.lastOcc rs r.url = some v := hv
    rw [← SearchGateway.dictFind_dictFold rs r.url hu] at hlast
    rw [SearchGateway.dictFind] at hlast
    obtain ⟨q, hq, hqv⟩ := Option.map_eq_some'.mp hlast
    have hqmem := List.mem_of_find?_eq_some hq
    have hqpred := List.find?_some hq
    have hq1 : q.1 = r.url := by simpa using hqpred
    refine ⟨q.2, List.mem_map_of_mem Prod.snd hqmem, ?_⟩
    rw [(hpairs q hqmem).1, hq1]
  · rintro ⟨r, hr, rfl⟩
    have hlast : SearchGateway.lastOcc rs r.url = some r := by
      have h := hfind r hr
      rw [SearchGateway.dictFind_dictFold rs r.url (hmemout r hr).2] at h
      exact h
    have hmem := SearchGateway.mem_of_getLast?_eq_some hlast
    obtain ⟨hrs, hurl⟩ := List.mem_filter.mp hmem
    exact ⟨r, hrs, rfl⟩
  · have h := hfind r hr
    rw [SearchGateway.dictFind_dictFold rs r.url (hmemout r hr).2] at h
    exact h

/-- Witness for C3 (amended) at the counterexample input: the kept result for
URL `https://a/b` is the last occurrence. -/
theorem C3_fuse_and_deduplicate_witness :
    SearchGateway.lastOcc
        [{ title := "first", url := "https://a/b", description := "", source := "p1" },
         { title := "second", url := "https://a/b", description := "", source := "p2" }]
        "https://a/b"
      = some { title := "second", url := "https://a/b", description := "", source := "p2" } := by
  have h := (C3_fuse_and_deduplicate
      [{ title := "first", url := "https://a/b", description := "", source := "p1" },
       { title := "second", url := "https://a/b", description := "", source := "p2" }]).2.2.2
    { title := "second", url := "https://a/b", description := "", source := "p2" }
    (by decide)
  exact h

/-! ## Scrape stage (`services/deepsearch/core/engine.py`,
`DeepSearchEngine._parallel_scrape`)

`scrape_one` posts each URL to the crawler and catches its own exceptions,
so it is total; `asyncio.gather` returns results in the order of the tasks
it was given (task order, not completion order); the gathered list is then
filtered on `success` and `min_content_length`.  The crawler is opaque and
is modelled by the `fetch` oracle.
-/

structure ScrapedContent where
  url : String
  title : String
  content : String
  markdown : Option String := none
  word_count : ℕ := 0
  success : Bool := true
  error_message : Option String := none
  deriving DecidableEq, Repr

/-- Outcome of one crawler call: a JSON payload (`content`, `success`,
`error_message` fields) or a raised exception. -/
inductive FetchOutcome where
  | ok (content : String) (success : Bool) (error_message : Option String)
  | exn (msg : String)
  deriving DecidableEq, Repr

/-- Python `len(content.split())`: split on whitespace runs, empties dropped. -/
def countWords (s : String) : ℕ :=
  ((s.split Char.isWhitespace).filter (fun w => w ≠ "")).length

/-- `scrape_one(url, title)`: builds a `ScrapedContent` from the crawler's
payload, or a failure record if the call raised. -/
def scrapeOne (fetch : String → FetchOutcome) (url title : String) :
    ScrapedContent :=
  match fetch url with
  | .ok content success error_message =>
      { url := url, title := title, content := content,
        markdown := some content, success := success,
        word_count := countWords content, error_message := error_message }
  | .exn msg =>
      { url := url, title := title, content := "",
        success := false, error_message := some msg }

/-- `DeepSearchEngine._parallel_scrape`: scrape the first `max_urls` results
(gather keeps task order), then keep only successful scrapes of at least
`min_length` characters. -/
def parallelScrape (fetch : String → FetchOutcome)
    (search_results : List SearchResult) (max_urls min_length : ℕ) :
    List ScrapedContent :=
  ((search_results.take max_urls).map
      (fun r => scrapeOne fetch r.url r.title)).filter
    (fun r => r.success && decide (min_length ≤ r.content.length))

/-- Modelled from the spec's words, for comparison only: the gathered list
reordered by a completion order `σ` of the concurrent fetches.  The code's
`asyncio.gather` ignores completion order, so `_parallel_scrape` does not
use `σ` at all. -/
def completionOrdered (σ : List ℕ) (l : List ScrapedContent) :
    List ScrapedContent :=
  σ.filterMap l.get?

/-- Concrete fetch oracle for the C7 example: every URL fetches successfully
with the URL itself as content. -/
def c7fetch : String → FetchOutcome := fun u => .ok u true none

/-- **C7 (counterexample)** — "The order of the returned list follows the
completion order of the concurrent fetches" is false: with two URLs `a`, `b`
(in that input order) and completion order `b` before `a`, the returned list
is still in input order `a`, `b`, not in completion order `b`, `a`. -/
theorem C7_parallel_scrape_counterexample :
    (parallelScrape c7fetch
        [{ title := "A", url := "a", description := "", source := "s" },
         { title := "B", url := "b", description := "", source := "s" }]
        2 0).map ScrapedContent.url = ["a", "b"]
    ∧ (completionOrdered [1, 0]
        (([({ title := "A", url := "a", description := "", source := "s" } : SearchResult),
           { title := "B", url := "b", description := "", source := "s" }].take 2).map
          (fun r => scrapeOne c7fetch r.url r.title))).map ScrapedContent.url
        = ["b", "a"]
    ∧ (["a", "b"] : List String) ≠ ["b", "a"] := by
  refine ⟨rfl, rfl, by decide⟩

/-- **C7 (amended)** — Every element of the returned list has `success = true`
and content length at least `min_length` (failed fetches and too-short
content are filtered out), and the order of the returned list follows the
**input** order of the URLs (a sublist of the gathered, task-ordered list);
`asyncio.gather` preserves task order, not completion order. -/
theorem C7_parallel_scrape (fetch : String → FetchOutcome)
    (results : List SearchResult) (max_urls min_length : ℕ) :
    (∀ c ∈ parallelScrape fetch results max_urls min_length,
        c.success = true ∧ min_length ≤ c.content.length)
    ∧ (parallelScrape fetch results max_urls min_length).Sublist
        ((results.take max_urls).map (fun r => scrapeOne fetch r.url r.title)) := by
  constructor
  · intro c hc
    obtain ⟨-, hpred⟩ := List.mem_filter.mp hc
    simp only [Bool.and_eq_true, decide_eq_true_eq] at hpred
    exact hpred
  · exact List.filter_sublist _

/-- Witness for C7 (amended): the single kept scrape of URL `a` is successful
and long enough. -/
theorem C7_parallel_scrape_witness :
    (scrapeOne c7fetch "a" "A").success = true
      ∧ 1 ≤ (scrapeOne c7fetch "a" "A").content.length :=
  (C7_parallel_scrape c7fetch
    [{ title := "A", url := "a", description := "", source := "s" }] 1 1).1
    _ (List.mem_filter.mpr
        ⟨List.mem_map_of_mem _ (List.mem_singleton_self _), rfl⟩)

/-! ## Retrieve stage (`services/deepsearch/core/engine.py`,
`DeepSearchEngine._retrieve_chunks`)

Each nearest-neighbour hit is normalised to a `VectorChunk` with
`similarity_score = 1 - distance if distance is not None else None` — the
source applies no clamping.  A hit bundles the aligned entries of the
store's parallel arrays (`ids`, `documents`, `metadatas`, `distances`).
-/

structure VectorMeta where
  url : Option String := none
  title : Option String := none
  deriving DecidableEq, Repr

structure VectorChunk where
  chunk_id : String
  content : String
  url : String
  title : String
  similarity_score : Option ℚ := none
  metadata : VectorMeta := {}
  deriving DecidableEq, Repr

structure VectorHit where
  id : String
  doc : String
  metadata : Option VectorMeta := none
  distance : Option ℚ := none
  deriving DecidableEq, Repr

/-- `DeepSearchEngine._retrieve_chunks`, response-processing part: one
`VectorChunk` per hit; a missing `metadatas` key yields the empty dict. -/
def retrieveChunks (hits : List VectorHit) : List VectorChunk :=
  hits.map fun h =>
    let metadata := h.metadata.getD {}
    { chunk_id := h.id, content := h.doc,
      url := metadata.url.getD "", title := metadata.title.getD "",
      similarity_score := h.distance.map (fun d => 1 - d),
      metadata := metadata }

/-- **C8 (counterexample)** — "similarity_score equals 1 − d clamped to
[0,1]" is false: a hit at distance 2 produces `similarity_score = −1`,
which is negative. -/
theorem C8_retrieve_chunks_counterexample :
    (retrieveChunks [{ id := "c1", doc := "d", distance := some 2 }]).map
        VectorChunk.similarity_score = [some (-1)]
    ∧ ¬ ((0 : ℚ) ≤ -1) := by
  refine ⟨by norm_num [retrieveChunks], by norm_num⟩

/-- **C8 (amended)** — For every hit returned by the vector store with
distance `d`, the retrieve stage produces a `VectorChunk` whose
`similarity_score` equals exactly `1 − d`, with **no clamping** (and `none`
when the store reports no distance); the score falls outside `[0,1]`
whenever `d` does. -/
theorem C8_retrieve_chunks_similarity (hits : List VectorHit) :
    (retrieveChunks hits).map VectorChunk.similarity_score
      = hits.map (fun h => h.distance.map (fun d => 1 - d)) := by
  rw [retrieveChunks, List.map_map]
  rfl

/-! ## Result ranker (`services/search-agent/ranking/result_ranker.py`)

`_calculate_relevance_score` runs the sklearn TF-IDF pipeline inside a
`try`/`except Exception`: on success it writes the cosine similarity between
the query and `f"{r.title} {r.description}"` into each result's
`confidence`; when the vectorizer raises (e.g. an all-stop-words corpus) the
handler logs a warning and the results are returned with their confidences
unchanged.  `_apply_domain_authority` then overwrites `confidence` with
`0.7 * confidence + 0.3 * authority`.  The sklearn pipeline and
`urlparse(url).netloc.lower()` are opaque library calls, abstracted as the
parameters `vect` (returning `some scores` or `none` for a raise) and
`extractDomain`. -/

namespace ResultRanker

/-- The `self.domain_authority` dict of `ResultRanker.__init__`. -/
def domain_authority_table : List (String × ℚ) :=
  [("wikipedia.org", 95/100), ("github.com", 9/10), ("arxiv.org", 85/100),
   ("scholar.google.com", 9/10), ("medium.com", 7/10),
   ("stackexchange.com", 85/100), ("stackoverflow.com", 88/100)]

/-- Python `self.domain_authority.get(d)`. -/
def tableGet (d : String) : Option ℚ :=
  (domain_authority_table.find? (fun p => p.1 == d)).map Prod.snd

/-- `'.'.join(domain.split('.')[-2:]) if domain.count('.') > 1 else domain`. -/
def base_domain (domain : String) : String :=
  if domain.toList.count '.' > 1 then
    let parts := domain.splitOn "."
    String.intercalate "." (parts.drop (parts.length - 2))
  else domain

/-- `self.domain_authority.get(domain) or self.domain_authority.get(base, 0.5)`
— Python `or` falls through on a falsy left operand (`None` or `0.0`). -/
def domainAuthority (domain : String) : ℚ :=
  match tableGet domain with
  | some v => if v = 0 then (tableGet (base_domain domain)).getD (1/2) else v
  | none => (tableGet (base_domain domain)).getD (1/2)

/-- The lookup as the spec words it: exact host first, then second-level
domain, defaulting to 0.5 when neither lookup succeeds. -/
def specDomainAuthority (domain : String) : ℚ :=
  match tableGet domain with
  | some v => v
  | none => (tableGet (base_domain domain)).getD (1/2)

/-- The assignment loop `for idx, score in enumerate(cosine_similarities):
results[idx].confidence = float(score)`: overwrite confidences positionally,
leaving results beyond the scores unchanged.  (Should sklearn ever return
more scores than results, the loop raises `IndexError` only after every
result has been assigned, and the `except` branch then returns the fully
assigned list — the same value this function computes.) -/
def applyScores : List SearchResult → List ℚ → List SearchResult
  | rs, [] => rs
  | [], _ => []
  | r :: rs, s :: ss => { r with confidence := s } :: applyScores rs ss

/-- `ResultRanker._calculate_relevance_score`.  The sklearn calls
(`fit_transform` on the query-plus-documents corpus, then
`cosine_similarity`) are abstracted as the oracle `vect`, which returns
`some scores` (one cosine per document) when the vectorizer succeeds and
`none` when it raises; in the latter case the `except Exception` handler
only logs, so the results are returned with confidences unchanged. -/
def calculateRelevanceScore (vect : String → List String → Option (List ℚ))
    (query : String) (results : List SearchResult) : List SearchResult :=
  if results.isEmpty then []
  else
    match vect query
        (results.map (fun r => r.title ++ " " ++ r.description)) with
    | some scores => applyScores results scores
    | none => results

/-- `ResultRanker._apply_domain_authority`. -/
def applyDomainAuthority (extractDomain : String → String)
    (results : List SearchResult) : List SearchResult :=
  results.map (fun r =>
    let authority := domainAuthority (extractDomain r.url)
    { r with domain_authority := some authority
             confidence := 7/10 * r.confidence + 3/10 * authority })

theorem tableGet_ne_zero (d : String) (v : ℚ) (h : tableGet d = some v) :
    v ≠ 0 := by
  rw [tableGet] at h
  obtain ⟨p, hp, rfl⟩ := Option.map_eq_some'.mp h
  have hmem := List.mem_of_find?_eq_some hp
  fin_cases hmem <;> norm_num

/-- The falsy-aware `or` agrees with the spec's first-hit reading, because the
authority table stores no zero weight. -/
theorem domainAuthority_eq_spec (d : String) :
    domainAuthority d = specDomainAuthority d := by
  rw [domainAuthority, specDomainAuthority]
  cases h : tableGet d with
  | none => rfl
  | some v =>
    simp only
    rw [if_neg (tableGet_ne_zero d v h)]

/-- On the success path the final confidences are, positionally, the convex
combination of the cosine score and the (spec-read) domain authority. -/
theorem applyScores_map_confidence (ed : String → String)
    (rs : List SearchResult) (scores : List ℚ)
    (hlen : scores.length = rs.length) :
    (applyDomainAuthority ed (applyScores rs scores)).map
        SearchResult.confidence
      = List.zipWith (fun (r : SearchResult) (s : ℚ) =>
          7/10 * s + 3/10 * specDomainAuthority (ed r.url)) rs scores := by
  induction rs generalizing scores with
  | nil =>
    have h0 : scores = [] := List.length_eq_zero.mp hlen
    subst h0
    rfl
  | cons r rs ih =>
    cases scores with
    | nil => simp at hlen
    | cons s ss =>
      show ((applyDomainAuthority ed
          ({ r with confidence := s } :: applyScores rs ss)).map
            SearchResult.confidence) = _
      have htail := ih ss (by simpa using hlen)
      simp only [applyDomainAuthority, List.map_cons,
        List.zipWith_cons_cons] at htail ⊢
      rw [List.cons.injEq]
      exact ⟨by rw [domainAuthority_eq_spec], htail⟩

/-- On the failure path (`vect` returned `none`) each result retains its
prior confidence, so the final confidence is the convex combination of that
prior value and the domain authority. -/
theorem applyDomainAuthority_map_confidence (ed : String → String)
    (rs : List SearchResult) :
    (applyDomainAuthority ed rs).map SearchResult.confidence
      = rs.map (fun r => 7/10 * r.confidence
          + 3/10 * specDomainAuthority (ed r.url)) := by
  induction rs with
  | nil => rfl
  | cons r rs ih =>
    simp only [applyDomainAuthority, List.map_cons] at ih ⊢
    rw [List.cons.injEq]
    exact ⟨by rw [domainAuthority_eq_spec], ih⟩

/-- Every output of `_apply_domain_authority` carries the looked-up authority
in its `domain_authority` field. -/
theorem applyDomainAuthority_field (ed : String → String)
    (rs : List SearchResult) :
    ∀ r ∈ applyDomainAuthority ed rs,
      r.domain_authority = some (specDomainAuthority (ed r.url)) := by
  intro r hr
  rw [applyDomainAuthority] at hr
  obtain ⟨r₁, -, rfl⟩ := List.mem_map.mp hr
  simp only
  rw [domainAuthority_eq_spec]

end ResultRanker

/-- A vectorizer oracle that always raises, and two results that differ only
in their prior (provider-weight) confidence: a concrete run of the
`except`-path of `_calculate_relevance_score`. -/
def c6vectFail : String → List String → Option (List ℚ) := fun _ _ => none

def c6edEmpty : String → String := fun _ => ""

def c6r1 : SearchResult :=
  { title := "t", url := "u", description := "d", source := "a",
    confidence := 1 }

def c6r2 : SearchResult :=
  { title := "t", url := "u", description := "d", source := "b",
    confidence := 12/10 }

/-- **C6, counterexample** — when the TF-IDF vectorizer raises, the `except`
branch of `_calculate_relevance_score` leaves the prior confidences in
place, so two results with identical query, title, description and url end
up with different final confidences: no cosine function at all can make the
claimed formula `final = 0.7·cos(query, title + " " + description) +
0.3·authority` hold for both outputs of this concrete run. -/
theorem C6_result_ranker_counterexample :
    ¬ ∃ cos : String → String → ℚ,
      ∀ r ∈ ResultRanker.applyDomainAuthority c6edEmpty
          (ResultRanker.calculateRelevanceScore c6vectFail "q" [c6r1, c6r2]),
        r.confidence
          = 7/10 * cos "q" (r.title ++ " " ++ r.description)
            + 3/10 * ResultRanker.specDomainAuthority (c6edEmpty r.url) := by
  rintro ⟨cos, h⟩
  have hcalc : ResultRanker.calculateRelevanceScore c6vectFail "q" [c6r1, c6r2]
      = [c6r1, c6r2] := rfl
  rw [hcalc] at h
  simp only [ResultRanker.applyDomainAuthority, List.map_cons,
    List.map_nil] at h
  have h1 := h _ (List.mem_cons_self _ _)
  have h2 := h _ (List.mem_cons_of_mem _ (List.mem_cons_self _ _))
  simp only [c6r1, c6r2] at h1 h2
  linarith

/-- **C6 (amended)** — For every query and result list: when the TF-IDF
vectorization succeeds (the oracle `vect` returns one cosine score per
document), the ranker sets each result's final confidence to exactly
`0.7 · score + 0.3 · domain_authority`; when the vectorizer raises, the
`except` handler keeps each result's prior confidence `c` and the final
confidence is `0.7 · c + 0.3 · domain_authority`.  In both cases the
authority is looked up by exact host, then by second-level domain,
defaulting to 0.5, and is stored in the `domain_authority` field. -/
theorem C6_result_ranker (vect : String → List String → Option (List ℚ))
    (extractDomain : String → String) (query : String)
    (results : List SearchResult) :
    (∀ scores : List ℚ,
      vect query (results.map (fun r => r.title ++ " " ++ r.description))
          = some scores →
      scores.length = results.length →
      (ResultRanker.applyDomainAuthority extractDomain
          (ResultRanker.calculateRelevanceScore vect query results)).map
            SearchResult.confidence
        = List.zipWith (fun (r : SearchResult) (s : ℚ) =>
            7/10 * s
              + 3/10 * ResultRanker.specDomainAuthority (extractDomain r.url))
            results scores)
    ∧ (vect query (results.map (fun r => r.title ++ " " ++ r.description))
          = none →
      (ResultRanker.applyDomainAuthority extractDomain
          (ResultRanker.calculateRelevanceScore vect query results)).map
            SearchResult.confidence
        = results.map (fun r => 7/10 * r.confidence
            + 3/10 * ResultRanker.specDomainAuthority (extractDomain r.url)))
    ∧ (∀ r ∈ ResultRanker.applyDomainAuthority extractDomain
          (ResultRanker.calculateRelevanceScore vect query results),
        r.domain_authority
          = some (ResultRanker.specDomainAuthority (extractDomain r.url)))
    ∧ (∀ d, ResultRanker.domainAuthority d
        = ResultRanker.specDomainAuthority d) := by
  refine ⟨?_, ?_, ResultRanker.applyDomainAuthority_field _ _,
    ResultRanker.domainAuthority_eq_spec⟩
  · intro scores hvect hlen
    by_cases he : results.isEmpty
    · have h0 : results = [] := List.isEmpty_iff.mp he
      subst h0
      rfl
    · rw [ResultRanker.calculateRelevanceScore, if_neg he, hvect]
      exact ResultRanker.applyScores_map_confidence extractDomain
        results scores hlen
  · intro hnone
    by_cases he : results.isEmpty
    · have h0 : results = [] := List.isEmpty_iff.mp he
      subst h0
      rfl
    · rw [ResultRanker.calculateRelevanceScore, if_neg he, hnone]
      exact ResultRanker.applyDomainAuthority_map_confidence
        extractDomain results

/-- Vectorizer oracle (always succeeding with cosine 1/2 per document) and
host extractor for the C6 witness. -/
def c6vect : String → List String → Option (List ℚ) :=
  fun _ docs => some (docs.map (fun _ => 1/2))

def c6host : String → String := fun _ => "en.wikipedia.org"

def c6input : SearchResult :=
  { title := "France", url := "https://en.wikipedia.org/wiki/France",
    description := "d", source := "wikipedia" }

def c6outputList : List SearchResult :=
  ResultRanker.applyDomainAuthority c6host
    (ResultRanker.calculateRelevanceScore c6vect "q" [c6input])

/-- Witness for C6: on a concrete Wikipedia result with a successful
vectorization the ranked confidences are exactly the convex combination of
the cosine score and the authority. -/
theorem C6_result_ranker_witness :
    c6outputList.map SearchResult.confidence
      = List.zipWith (fun (r : SearchResult) (s : ℚ) =>
          7/10 * s + 3/10 * ResultRanker.specDomainAuthority (c6host r.url))
          [c6input] [1/2] :=
  (C6_result_ranker c6vect c6host "q" [c6input]).1 [1/2] rfl rfl

/-! ## Circuit breaker (`services/llm_gateway/services/circuit_breaker.py`)

State machine with explicit wall-clock instants.  A call is one atomic step:
the admission check of `CircuitBreaker.call` (possibly transitioning
open → half-open, or raising), then the wrapped function's tracked outcome
(`expected_exception` failures and successes; exceptions outside
`expected_exception` touch only `total_calls` and are not tracked outcomes).
`call` returns the new state and whether the wrapped function was invoked.
-/

inductive CircuitState where
  | CLOSED
  | OPEN
  | HALF_OPEN
  deriving DecidableEq, Repr

/-- Outcome of the wrapped function: `success` returns normally, `failure`
raises an exception matching `expected_exception` (recorded by
`_record_failure`), and `untracked` raises one that does not match (the
final `except Exception` branch of `call`: only `total_calls` is incremented
and the exception propagates — lines 161-164). -/
inductive Outcome where
  | success
  | failure
  | untracked
  deriving DecidableEq, Repr

structure CircuitBreaker where
  failure_threshold : ℕ
  recovery_timeout : ℚ
  half_open_max_calls : ℕ
  state : CircuitState
  failure_count : ℕ
  success_count : ℕ
  last_failure_time : Option ℚ
  last_success_time : Option ℚ
  half_open_calls : ℕ
  total_calls : ℕ
  total_failures : ℕ
  total_successes : ℕ
  deriving DecidableEq, Repr

/-- `CircuitBreaker.__init__`. -/
def mkCircuitBreaker (failure_threshold : ℕ) (recovery_timeout : ℚ)
    (half_open_max_calls : ℕ) : CircuitBreaker :=
  { failure_threshold := failure_threshold
    recovery_timeout := recovery_timeout
    half_open_max_calls := half_open_max_calls
    state := .CLOSED, failure_count := 0, success_count := 0
    last_failure_time := none, last_success_time := none
    half_open_calls := 0, total_calls := 0
    total_failures := 0, total_successes := 0 }

namespace CircuitBreaker

/-- `_should_attempt_reset`. -/
def shouldAttemptReset (cb : CircuitBreaker) (now : ℚ) : Bool :=
  match cb.last_failure_time with
  | none => false
  | some t => decide (cb.recovery_timeout ≤ now - t)

/-- `_transition_to_half_open`. -/
def transitionToHalfOpen (cb : CircuitBreaker) : CircuitBreaker :=
  { cb with state := .HALF_OPEN, success_count := 0, half_open_calls := 0 }

/-- `_record_success`: the sequential mutations of the Python method are
flattened into one record update per `if`/`elif` branch (`_reset` is inlined
in the closing branch). -/
def recordSuccess (cb : CircuitBreaker) (now : ℚ) : CircuitBreaker :=
  if cb.state = .HALF_OPEN then
    if cb.half_open_max_calls ≤ cb.success_count + 1 then
      { cb with total_calls := cb.total_calls + 1
                total_successes := cb.total_successes + 1
                last_success_time := some now
                state := .CLOSED, failure_count := 0
                success_count := 0, half_open_calls := 0 }
    else
      { cb with total_calls := cb.total_calls + 1
                total_successes := cb.total_successes + 1
                last_success_time := some now
                success_count := cb.success_count + 1 }
  else if cb.state = .CLOSED then
    { cb with total_calls := cb.total_calls + 1
              total_successes := cb.total_successes + 1
              last_success_time := some now
              failure_count := 0 }
  else
    { cb with total_calls := cb.total_calls + 1
              total_successes := cb.total_successes + 1
              last_success_time := some now }

/-- `_record_failure`, flattened the same way (`_open_circuit` is inlined:
it sets `state := OPEN`, `success_count := 0`, `half_open_calls := 0`). -/
def recordFailure (cb : CircuitBreaker) (now : ℚ) : CircuitBreaker :=
  if cb.state = .CLOSED then
    if cb.failure_threshold ≤ cb.failure_count + 1 then
      { cb with total_calls := cb.total_calls + 1
                total_failures := cb.total_failures + 1
                failure_count := cb.failure_count + 1
                last_failure_time := some now
                state := .OPEN, success_count := 0, half_open_calls := 0 }
    else
      { cb with total_calls := cb.total_calls + 1
                total_failures := cb.total_failures + 1
                failure_count := cb.failure_count + 1
                last_failure_time := some now }
  else if cb.state = .HALF_OPEN then
    { cb with total_calls := cb.total_calls + 1
              total_failures := cb.total_failures + 1
              failure_count := cb.failure_count + 1
              last_failure_time := some now
              state := .OPEN, success_count := 0, half_open_calls := 0 }
  else
    { cb with total_calls := cb.total_calls + 1
              total_failures := cb.total_failures + 1
              failure_count := cb.failure_count + 1
              last_failure_time := some now }

/-- The admission check at the top of `call`: `none` means the call is
rejected (raises) with the breaker unchanged; `some s` is the breaker state
in which the wrapped function is invoked. -/
def admitCall (cb : CircuitBreaker) (now : ℚ) : Option CircuitBreaker :=
  if cb.state = .OPEN then
    if cb.shouldAttemptReset now then some cb.transitionToHalfOpen else none
  else if cb.state = .HALF_OPEN then
    if cb.half_open_max_calls ≤ cb.half_open_calls then none
    else some { cb with half_open_calls := cb.half_open_calls + 1 }
  else some cb

/-- `CircuitBreaker.call`: returns the post-call state and whether the
wrapped function was invoked.  An admitted call with an `untracked` outcome
only increments `total_calls` (the exception re-raises without touching any
other counter). -/
def call (cb : CircuitBreaker) (now : ℚ) (o : Outcome) :
    CircuitBreaker × Bool :=
  match cb.admitCall now with
  | none => (cb, false)
  | some s =>
      match o with
      | .success => (s.recordSuccess now, true)
      | .failure => (s.recordFailure now, true)
      | .untracked => ({ s with total_calls := s.total_calls + 1 }, true)

/-- A sequence of calls at given instants with given outcomes. -/
def runCalls (cb : CircuitBreaker) (calls : List (ℚ × Outcome)) :
    CircuitBreaker :=
  calls.foldl (fun s c => (s.call c.1 c.2).1) cb

@[simp] theorem runCalls_nil (cb : CircuitBreaker) : cb.runCalls [] = cb := rfl

@[simp] theorem runCalls_cons (cb : CircuitBreaker) (c : ℚ × Outcome)
    (calls : List (ℚ × Outcome)) :
    cb.runCalls (c :: calls) = ((cb.call c.1 c.2).1).runCalls calls := rfl

theorem state_ne_of_eq {cb : CircuitBreaker} {s₁ s₂ : CircuitState}
    (h : cb.state = s₁) (hne : s₁ ≠ s₂) : ¬ cb.state = s₂ := by
  rw [h]
  exact hne

theorem admit_closed {cb : CircuitBreaker} (h : cb.state = .CLOSED) (now : ℚ) :
    cb.admitCall now = some cb := by
  rw [admitCall, if_neg (state_ne_of_eq h (by decide)),
    if_neg (state_ne_of_eq h (by decide))]

theorem admit_open_due {cb : CircuitBreaker} (h : cb.state = .OPEN) {now : ℚ}
    (hdue : cb.shouldAttemptReset now = true) :
    cb.admitCall now = some cb.transitionToHalfOpen := by
  rw [admitCall, if_pos h, if_pos hdue]

theorem admit_open_stale {cb : CircuitBreaker} (h : cb.state = .OPEN) {now : ℚ}
    (hdue : cb.shouldAttemptReset now = false) :
    cb.admitCall now = none := by
  rw [admitCall, if_pos h]
  simp [hdue]

theorem admit_halfOpen_full {cb : CircuitBreaker} (h : cb.state = .HALF_OPEN)
    (hfull : cb.half_open_max_calls ≤ cb.half_open_calls) (now : ℚ) :
    cb.admitCall now = none := by
  rw [admitCall, if_neg (state_ne_of_eq h (by decide)), if_pos h, if_pos hfull]

theorem admit_halfOpen_free {cb : CircuitBreaker} (h : cb.state = .HALF_OPEN)
    (hfree : ¬ cb.half_open_max_calls ≤ cb.half_open_calls) (now : ℚ) :
    cb.admitCall now
      = some { cb with half_open_calls := cb.half_open_calls + 1 } := by
  rw [admitCall, if_neg (state_ne_of_eq h (by decide)), if_pos h, if_neg hfree]

theorem call_rejected {cb : CircuitBreaker} {now : ℚ}
    (h : cb.admitCall now = none) (o : Outcome) : cb.call now o = (cb, false) := by
  rw [call, h]

theorem call_success {cb s : CircuitBreaker} {now : ℚ}
    (h : cb.admitCall now = some s) :
    cb.call now .success = (s.recordSuccess now, true) := by
  rw [call, h]

theorem call_failure {cb s : CircuitBreaker} {now : ℚ}
    (h : cb.admitCall now = some s) :
    cb.call now .failure = (s.recordFailure now, true) := by
  rw [call, h]

theorem call_untracked {cb s : CircuitBreaker} {now : ℚ}
    (h : cb.admitCall now = some s) :
    cb.call now .untracked
      = ({ s with total_calls := s.total_calls + 1 }, true) := by
  rw [call, h]

theorem recordSuccess_halfOpen_close {cb : CircuitBreaker} {now : ℚ}
    (h : cb.state = .HALF_OPEN)
    (hk : cb.half_open_max_calls ≤ cb.success_count + 1) :
    cb.recordSuccess now
      = { cb with total_calls := cb.total_calls + 1
                  total_successes := cb.total_successes + 1
                  last_success_time := some now
                  state := .CLOSED, failure_count := 0
                  success_count := 0, half_open_calls := 0 } := by
  rw [recordSuccess, if_pos h, if_pos hk]

theorem recordSuccess_halfOpen_more {cb : CircuitBreaker} {now : ℚ}
    (h : cb.state = .HALF_OPEN)
    (hk : ¬ cb.half_open_max_calls ≤ cb.success_count + 1) :
    cb.recordSuccess now
      = { cb with total_calls := cb.total_calls + 1
                  total_successes := cb.total_successes + 1
                  last_success_time := some now
                  success_count := cb.success_count + 1 } := by
  rw [recordSuccess, if_pos h, if_neg hk]

theorem recordSuccess_closed {cb : CircuitBreaker} {now : ℚ}
    (h : cb.state = .CLOSED) :
    cb.recordSuccess now
      = { cb with total_calls := cb.total_calls + 1
                  total_successes := cb.total_successes + 1
                  last_success_time := some now
                  failure_count := 0 } := by
  rw [recordSuccess, if_neg (state_ne_of_eq h (by decide)), if_pos h]

theorem recordFailure_closed_trip {cb : CircuitBreaker} {now : ℚ}
    (h : cb.state = .CLOSED)
    (hth : cb.failure_threshold ≤ cb.failure_count + 1) :
    cb.recordFailure now
      = { cb with total_calls := cb.total_calls + 1
                  total_failures := cb.total_failures + 1
                  failure_count := cb.failure_count + 1
                  last_failure_time := some now
                  state := .OPEN, success_count := 0
                  half_open_calls := 0 } := by
  rw [recordFailure, if_pos h, if_pos hth]

theorem recordFailure_closed_stay {cb : CircuitBreaker} {now : ℚ}
    (h : cb.state = .CLOSED)
    (hth : ¬ cb.failure_threshold ≤ cb.failure_count + 1) :
    cb.recordFailure now
      = { cb with total_calls := cb.total_calls + 1
                  total_failures := cb.total_failures + 1
                  failure_count := cb.failure_count + 1
                  last_failure_time := some now } := by
  rw [recordFailure, if_pos h, if_neg hth]

theorem recordFailure_halfOpen {cb : CircuitBreaker} {now : ℚ}
    (h : cb.state = .HALF_OPEN) :
    cb.recordFailure now
      = { cb with total_calls := cb.total_calls + 1
                  total_failures := cb.total_failures + 1
                  failure_count := cb.failure_count + 1
                  last_failure_time := some now
                  state := .OPEN, success_count := 0
                  half_open_calls := 0 } := by
  rw [recordFailure, if_neg (state_ne_of_eq h (by decide)), if_pos h]

/-- Between-step invariant of half-open states reached by **tracked**
outcomes only: the probe counter lags the success counter by exactly one
(the transitioning call is admitted without incrementing
`half_open_calls`), and fewer than `half_open_max_calls` successes have been
recorded.  An `untracked` outcome breaks it: the transition probe then
leaves a half-open state with `success_count = half_open_calls = 0`. -/
def HalfOpenInv (cb : CircuitBreaker) : Prop :=
  cb.state = .HALF_OPEN →
    cb.success_count = cb.half_open_calls + 1
      ∧ cb.success_count < cb.half_open_max_calls

theorem call_halfOpenInv (cb : CircuitBreaker) (now : ℚ) (o : Outcome)
    (ho : o ≠ .untracked) (hinv : HalfOpenInv cb) :
    HalfOpenInv (cb.call now o).1 := by
  cases hst : cb.state with
  | CLOSED =>
    cases o with
    | success =>
      rw [call_success (admit_closed hst now), recordSuccess_closed hst]
      intro h
      simp [hst] at h
    | failure =>
      rw [call_failure (admit_closed hst now)]
      by_cases hth : cb.failure_threshold ≤ cb.failure_count + 1
      · rw [recordFailure_closed_trip hst hth]
        intro h
        simp at h
      · rw [recordFailure_closed_stay hst hth]
        intro h
        simp [hst] at h
    | untracked => exact absurd rfl ho
  | OPEN =>
    cases hdue : cb.shouldAttemptReset now with
    | false =>
      rw [(call_rejected (admit_open_stale hst hdue) o : _)]
      exact hinv
    | true =>
      have hs : cb.transitionToHalfOpen.state = .HALF_OPEN := rfl
      cases o with
      | success =>
        rw [call_success (admit_open_due hst hdue)]
        by_cases hk : cb.transitionToHalfOpen.half_open_max_calls
            ≤ cb.transitionToHalfOpen.success_count + 1
        · rw [recordSuccess_halfOpen_close hs hk]
          intro h
          simp at h
        · rw [recordSuccess_halfOpen_more hs hk]
          intro h
          simp only [transitionToHalfOpen] at hk
          refine ⟨rfl, ?_⟩
          show 0 + 1 < cb.half_open_max_calls
          omega
      | failure =>
        rw [call_failure (admit_open_due hst hdue),
          recordFailure_halfOpen hs]
        intro h
        simp at h
      | untracked => exact absurd rfl ho
  | HALF_OPEN =>
    obtain ⟨hsc, hlt⟩ := hinv hst
    by_cases hfull : cb.half_open_max_calls ≤ cb.half_open_calls
    · rw [(call_rejected (admit_halfOpen_full hst hfull now) o : _)]
      exact hinv
    · have hs : ({ cb with half_open_calls := cb.half_open_calls + 1 }
          : CircuitBreaker).state = .HALF_OPEN := hst
      cases o with
      | success =>
        rw [call_success (admit_halfOpen_free hst hfull now)]
        by_cases hk : cb.half_open_max_calls ≤ cb.success_count + 1
        · rw [recordSuccess_halfOpen_close hs hk]
          intro h
          simp at h
        · rw [recordSuccess_halfOpen_more hs hk]
          intro h
          simp only
          omega
      | failure =>
        rw [call_failure (admit_halfOpen_free hst hfull now),
          recordFailure_halfOpen hs]
        intro h
        simp at h
      | untracked => exact absurd rfl ho

theorem runCalls_halfOpenInv (calls : List (ℚ × Outcome))
    (cb : CircuitBreaker)
    (htr : ∀ c ∈ calls, c.2 ≠ Outcome.untracked)
    (hinv : HalfOpenInv cb) :
    HalfOpenInv (cb.runCalls calls) := by
  induction calls generalizing cb with
  | nil => exact hinv
  | cons c calls ih =>
    exact ih _ (fun x hx => htr x (by simp [hx]))
      (call_halfOpenInv cb c.1 c.2 (htr c (by simp)) hinv)

/-- Probes invoked while the breaker remains `HALF_OPEN`: counts the calls
whose wrapped function is actually invoked, stopping as soon as the state
leaves `HALF_OPEN` (the episode ended by closing or reopening). -/
def episodeProbes : CircuitBreaker → List (ℚ × Outcome) → ℕ
  | _, [] => 0
  | cb, c :: rest =>
      if cb.state = .HALF_OPEN then
        (if (cb.call c.1 c.2).2 = true then 1 else 0)
          + episodeProbes (cb.call c.1 c.2).1 rest
      else 0

/-- Probes of one half-open episode started from `OPEN`: the first admitted
call is the open → half-open transition probe (invoked with the breaker
already `HALF_OPEN`), after which counting continues while the state stays
`HALF_OPEN`. -/
def episodeProbesFromOpen : CircuitBreaker → List (ℚ × Outcome) → ℕ
  | _, [] => 0
  | cb, c :: rest =>
      match cb.admitCall c.1 with
      | none => episodeProbesFromOpen (cb.call c.1 c.2).1 rest
      | some _ => 1 + episodeProbes (cb.call c.1 c.2).1 rest

theorem episodeProbes_cons (cb : CircuitBreaker) (t : ℚ) (o : Outcome)
    (rest : List (ℚ × Outcome)) :
    cb.episodeProbes ((t, o) :: rest)
      = if cb.state = .HALF_OPEN then
          (if (cb.call t o).2 = true then 1 else 0)
            + episodeProbes (cb.call t o).1 rest
        else 0 := rfl

theorem episodeProbesFromOpen_cons (cb : CircuitBreaker) (t : ℚ)
    (o : Outcome) (rest : List (ℚ × Outcome)) :
    cb.episodeProbesFromOpen ((t, o) :: rest)
      = match cb.admitCall t with
        | none => episodeProbesFromOpen (cb.call t o).1 rest
        | some _ => 1 + episodeProbes (cb.call t o).1 rest := rfl

theorem episodeProbes_of_ne {cb : CircuitBreaker}
    (h : ¬ cb.state = .HALF_OPEN) (l : List (ℚ × Outcome)) :
    cb.episodeProbes l = 0 := by
  cases l with
  | nil => rfl
  | cons c rest => rw [episodeProbes, if_neg h]

/-- While half-open, at most `half_open_max_calls − half_open_calls` more
probes can be invoked before the episode ends: every admitted probe
increments `half_open_calls`, and admission requires it to be below the
cap.  This holds for arbitrary outcome sequences, untracked ones included. -/
theorem episodeProbes_le (l : List (ℚ × Outcome)) :
    ∀ cb : CircuitBreaker, cb.state = .HALF_OPEN →
      cb.episodeProbes l
        ≤ cb.half_open_max_calls - cb.half_open_calls := by
  induction l with
  | nil => exact fun cb _ => Nat.zero_le _
  | cons c rest ih =>
    intro cb hst
    rw [episodeProbes, if_pos hst]
    by_cases hfull : cb.half_open_max_calls ≤ cb.half_open_calls
    · have hcall := call_rejected (admit_halfOpen_full hst hfull c.1) c.2
      rw [hcall]
      show (if false = true then 1 else 0) + cb.episodeProbes rest ≤ _
      rw [if_neg Bool.false_ne_true]
      have hrec := ih cb hst
      omega
    · have hadm := admit_halfOpen_free hst hfull c.1
      have hs : ({ cb with half_open_calls := cb.half_open_calls + 1 }
          : CircuitBreaker).state = .HALF_OPEN := hst
      cases hc : c.2 with
      | success =>
        have hb : (cb.call c.1 Outcome.success).2 = true := by
          rw [call_success hadm]
        rw [if_pos hb]
        by_cases hk : cb.half_open_max_calls ≤ cb.success_count + 1
        · have hne : ¬ (cb.call c.1 Outcome.success).1.state
              = CircuitState.HALF_OPEN := by
            rw [call_success hadm, recordSuccess_halfOpen_close hs hk]
            simp
          rw [episodeProbes_of_ne hne rest]
          omega
        · have hh : (cb.call c.1 Outcome.success).1.state
              = CircuitState.HALF_OPEN := by
            rw [call_success hadm, recordSuccess_halfOpen_more hs hk]
            exact hst
          have hK : (cb.call c.1 Outcome.success).1.half_open_max_calls
              = cb.half_open_max_calls := by
            rw [call_success hadm, recordSuccess_halfOpen_more hs hk]
          have hhoc : (cb.call c.1 Outcome.success).1.half_open_calls
              = cb.half_open_calls + 1 := by
            rw [call_success hadm, recordSuccess_halfOpen_more hs hk]
          have hrec := ih _ hh
          omega
      | failure =>
        have hb : (cb.call c.1 Outcome.failure).2 = true := by
          rw [call_failure hadm]
        rw [if_pos hb]
        have hne : ¬ (cb.call c.1 Outcome.failure).1.state
            = CircuitState.HALF_OPEN := by
          rw [call_failure hadm, recordFailure_halfOpen hs]
          simp
        rw [episodeProbes_of_ne hne rest]
        omega
      | untracked =>
        have hb : (cb.call c.1 Outcome.untracked).2 = true := by
          rw [call_untracked hadm]
        rw [if_pos hb]
        have hh : (cb.call c.1 Outcome.untracked).1.state
            = CircuitState.HALF_OPEN := by
          rw [call_untracked hadm]
          exact hst
        have hK : (cb.call c.1 Outcome.untracked).1.half_open_max_calls
            = cb.half_open_max_calls := by
          rw [call_untracked hadm]
        have hhoc : (cb.call c.1 Outcome.untracked).1.half_open_calls
            = cb.half_open_calls + 1 := by
          rw [call_untracked hadm]
        have hrec := ih _ hh
        omega

/-- Any half-open episode started from `OPEN` invokes at most
`half_open_max_calls + 1` probes: the transition probe is admitted without
incrementing `half_open_calls`, and at most `half_open_max_calls` counted
probes follow. -/
theorem episodeProbesFromOpen_le (l : List (ℚ × Outcome)) :
    ∀ cb : CircuitBreaker, cb.state = .OPEN →
      cb.episodeProbesFromOpen l ≤ cb.half_open_max_calls + 1 := by
  induction l with
  | nil => exact fun cb _ => Nat.zero_le _
  | cons c rest ih =>
    intro cb hst
    cases hdue : cb.shouldAttemptReset c.1 with
    | false =>
      have hadm := admit_open_stale hst hdue
      have hcall := call_rejected hadm c.2
      rw [episodeProbesFromOpen, hadm, hcall]
      show cb.episodeProbesFromOpen rest ≤ _
      exact ih cb hst
    | true =>
      have hadm := admit_open_due hst hdue
      rw [episodeProbesFromOpen, hadm]
      show 1 + ((cb.call c.1 c.2).1).episodeProbes rest
        ≤ cb.half_open_max_calls + 1
      have hs : cb.transitionToHalfOpen.state = .HALF_OPEN := rfl
      cases hc : c.2 with
      | success =>
        by_cases hk : cb.transitionToHalfOpen.half_open_max_calls
            ≤ cb.transitionToHalfOpen.success_count + 1
        · have hne : ¬ (cb.call c.1 Outcome.success).1.state
              = CircuitState.HALF_OPEN := by
            rw [call_success hadm, recordSuccess_halfOpen_close hs hk]
            simp
          rw [episodeProbes_of_ne hne rest]
          omega
        · have hh : (cb.call c.1 Outcome.success).1.state
              = CircuitState.HALF_OPEN := by
            rw [call_success hadm, recordSuccess_halfOpen_more hs hk]
            rfl
          have hK : (cb.call c.1 Outcome.success).1.half_open_max_calls
              = cb.half_open_max_calls := by
            rw [call_success hadm, recordSuccess_halfOpen_more hs hk]
            rfl
          have hhoc : (cb.call c.1 Outcome.success).1.half_open_calls = 0 := by
            rw [call_success hadm, recordSuccess_halfOpen_more hs hk]
            rfl
          have hrec := episodeProbes_le rest _ hh
          omega
      | failure =>
        have hne : ¬ (cb.call c.1 Outcome.failure).1.state
            = CircuitState.HALF_OPEN := by
          rw [call_failure hadm, recordFailure_halfOpen hs]
          simp
        rw [episodeProbes_of_ne hne rest]
        omega
      | untracked =>
        have hh : (cb.call c.1 Outcome.untracked).1.state
            = CircuitState.HALF_OPEN := by
          rw [call_untracked hadm]
          rfl
        have hK : (cb.call c.1 Outcome.untracked).1.half_open_max_calls
            = cb.half_open_max_calls := by
          rw [call_untracked hadm]
          rfl
        have hhoc : (cb.call c.1 Outcome.untracked).1.half_open_calls = 0 := by
          rw [call_untracked hadm]
          rfl
        have hrec := episodeProbes_le rest _ hh
        omega

/-- Tracked-outcome refinement of `episodeProbes_le`: under the half-open
invariant, at most `half_open_max_calls − success_count` further probes are
invoked. -/
theorem episodeProbes_tracked_le (l : List (ℚ × Outcome)) :
    ∀ cb : CircuitBreaker, cb.state = .HALF_OPEN →
      cb.success_count = cb.half_open_calls + 1 →
      cb.success_count < cb.half_open_max_calls →
      (∀ c ∈ l, c.2 ≠ Outcome.untracked) →
      cb.episodeProbes l ≤ cb.half_open_max_calls - cb.success_count := by
  induction l with
  | nil => exact fun cb _ _ _ _ => Nat.zero_le _
  | cons c rest ih =>
    intro cb hst hsc hlt htr
    rw [episodeProbes, if_pos hst]
    have hfull : ¬ cb.half_open_max_calls ≤ cb.half_open_calls := by omega
    have hadm := admit_halfOpen_free hst hfull c.1
    have hs : ({ cb with half_open_calls := cb.half_open_calls + 1 }
        : CircuitBreaker).state = .HALF_OPEN := hst
    cases hc : c.2 with
    | success =>
      have hb : (cb.call c.1 Outcome.success).2 = true := by
        rw [call_success hadm]
      rw [if_pos hb]
      by_cases hk : cb.half_open_max_calls ≤ cb.success_count + 1
      · have hne : ¬ (cb.call c.1 Outcome.success).1.state
            = CircuitState.HALF_OPEN := by
          rw [call_success hadm, recordSuccess_halfOpen_close hs hk]
          simp
        rw [episodeProbes_of_ne hne rest]
        omega
      · have hh : (cb.call c.1 Outcome.success).1.state
            = CircuitState.HALF_OPEN := by
          rw [call_success hadm, recordSuccess_halfOpen_more hs hk]
          exact hst
        have hK : (cb.call c.1 Outcome.success).1.half_open_max_calls
            = cb.half_open_max_calls := by
          rw [call_success hadm, recordSuccess_halfOpen_more hs hk]
        have hhoc : (cb.call c.1 Outcome.success).1.half_open_calls
            = cb.half_open_calls + 1 := by
          rw [call_success hadm, recordSuccess_halfOpen_more hs hk]
        have hsc2 : (cb.call c.1 Outcome.success).1.success_count
            = cb.success_count + 1 := by
          rw [call_success hadm, recordSuccess_halfOpen_more hs hk]
        have hrec := ih _ hh (by omega) (by omega)
          (fun x hx => htr x (by simp [hx]))
        omega
    | failure =>
      have hb : (cb.call c.1 Outcome.failure).2 = true := by
        rw [call_failure hadm]
      rw [if_pos hb]
      have hne : ¬ (cb.call c.1 Outcome.failure).1.state
          = CircuitState.HALF_OPEN := by
        rw [call_failure hadm, recordFailure_halfOpen hs]
        simp
      rw [episodeProbes_of_ne hne rest]
      omega
    | untracked => exact absurd hc (htr c (by simp))

/-- When every outcome is tracked (and at least one probe is allowed), a
half-open episode started from `OPEN` invokes at most `half_open_max_calls`
probes — the bound the claim states. -/
theorem episodeProbesFromOpen_tracked_le (l : List (ℚ × Outcome)) :
    ∀ cb : CircuitBreaker, cb.state = .OPEN →
      1 ≤ cb.half_open_max_calls →
      (∀ c ∈ l, c.2 ≠ Outcome.untracked) →
      cb.episodeProbesFromOpen l ≤ cb.half_open_max_calls := by
  induction l with
  | nil => exact fun cb _ _ _ => Nat.zero_le _
  | cons c rest ih =>
    intro cb hst h1 htr
    cases hdue : cb.shouldAttemptReset c.1 with
    | false =>
      have hadm := admit_open_stale hst hdue
      have hcall := call_rejected hadm c.2
      rw [episodeProbesFromOpen, hadm, hcall]
      show cb.episodeProbesFromOpen rest ≤ _
      exact ih cb hst h1 (fun x hx => htr x (by simp [hx]))
    | true =>
      have hadm := admit_open_due hst hdue
      rw [episodeProbesFromOpen, hadm]
      show 1 + ((cb.call c.1 c.2).1).episodeProbes rest
        ≤ cb.half_open_max_calls
      have hs : cb.transitionToHalfOpen.state = .HALF_OPEN := rfl
      have e1 : cb.transitionToHalfOpen.half_open_max_calls
          = cb.half_open_max_calls := rfl
      have e2 : cb.transitionToHalfOpen.success_count = 0 := rfl
      cases hc : c.2 with
      | success =>
        by_cases hk : cb.transitionToHalfOpen.half_open_max_calls
            ≤ cb.transitionToHalfOpen.success_count + 1
        · have hne : ¬ (cb.call c.1 Outcome.success).1.state
              = CircuitState.HALF_OPEN := by
            rw [call_success hadm, recordSuccess_halfOpen_close hs hk]
            simp
          rw [episodeProbes_of_ne hne rest]
          omega
        · have hh : (cb.call c.1 Outcome.success).1.state
              = CircuitState.HALF_OPEN := by
            rw [call_success hadm, recordSuccess_halfOpen_more hs hk]
            rfl
          have hK : (cb.call c.1 Outcome.success).1.half_open_max_calls
              = cb.half_open_max_calls := by
            rw [call_success hadm, recordSuccess_halfOpen_more hs hk]
            rfl
          have hhoc : (cb.call c.1 Outcome.success).1.half_open_calls
              = 0 := by
            rw [call_success hadm, recordSuccess_halfOpen_more hs hk]
            rfl
          have hsc2 : (cb.call c.1 Outcome.success).1.success_count
              = 1 := by
            rw [call_success hadm, recordSuccess_halfOpen_more hs hk]
            rfl
          have hrec := episodeProbes_tracked_le rest _ hh
            (by omega) (by omega) (fun x hx => htr x (by simp [hx]))
          omega
      | failure =>
        have hne : ¬ (cb.call c.1 Outcome.failure).1.state
            = CircuitState.HALF_OPEN := by
          rw [call_failure hadm, recordFailure_halfOpen hs]
          simp
        rw [episodeProbes_of_ne hne rest]
        omega
      | untracked => exact absurd hc (htr c (by simp))

/-- An all-failure run starting from `OPEN` stays `OPEN`: calls are either
rejected, or admitted as the half-open transition probe whose failure at
once reopens the breaker. -/
theorem open_stays_open_on_failures (calls : List (ℚ × Outcome))
    (cb : CircuitBreaker) (hst : cb.state = .OPEN)
    (hf : ∀ c ∈ calls, c.2 = .failure) :
    (cb.runCalls calls).state = .OPEN := by
  induction calls generalizing cb with
  | nil => exact hst
  | cons c calls ih =>
    rw [runCalls_cons]
    have hc : c.2 = Outcome.failure := hf c (by simp)
    apply ih
    · cases hdue : cb.shouldAttemptReset c.1 with
      | false =>
        rw [show cb.call c.1 c.2 = (cb, false) from
          call_rejected (admit_open_stale hst hdue) c.2]
        exact hst
      | true =>
        rw [hc, call_failure (admit_open_due hst hdue),
          recordFailure_halfOpen rfl]
    · intro x hx
      exact hf x (by simp [hx])

/-- From `CLOSED`, enough consecutive tracked failures drive the breaker to
`OPEN` (and it stays there for the remainder of the failure run). -/
theorem closed_failures_open (calls : List (ℚ × Outcome))
    (cb : CircuitBreaker) (hst : cb.state = .CLOSED)
    (hf : ∀ c ∈ calls, c.2 = .failure) (hnz : calls ≠ [])
    (hcount : cb.failure_threshold ≤ cb.failure_count + calls.length) :
    (cb.runCalls calls).state = .OPEN := by
  induction calls generalizing cb with
  | nil => exact absurd rfl hnz
  | cons c calls ih =>
    rw [runCalls_cons]
    have hc : c.2 = Outcome.failure := hf c (by simp)
    by_cases hth : cb.failure_threshold ≤ cb.failure_count + 1
    · rw [hc, call_failure (admit_closed hst c.1),
        recordFailure_closed_trip hst hth]
      apply open_stays_open_on_failures
      · rfl
      · intro x hx
        exact hf x (by simp [hx])
    · rw [hc, call_failure (admit_closed hst c.1),
        recordFailure_closed_stay hst hth]
      rcases calls with - | ⟨c2, calls⟩
      · simp at hcount
        omega
      · apply ih
        · exact hst
        · intro x hx
          exact hf x (by simp [hx])
        · exact List.cons_ne_nil c2 calls
        · show cb.failure_threshold ≤ cb.failure_count + 1 + (c2 :: calls).length
          simp only [List.length_cons] at hcount ⊢
          omega

/-- Consecutive successes in a half-open episode: if the invariant holds and
`m` more successes are needed, an all-success run of length `m` closes the
breaker with the episode counters reset. -/
theorem halfOpen_successes_close (calls : List (ℚ × Outcome))
    (cb : CircuitBreaker) (hst : cb.state = .HALF_OPEN)
    (hsc : cb.success_count = cb.half_open_calls + 1)
    (hm : cb.success_count + calls.length = cb.half_open_max_calls)
    (hs : ∀ c ∈ calls, c.2 = .success) (hnz : calls ≠ []) :
    (cb.runCalls calls).state = .CLOSED
      ∧ (cb.runCalls calls).failure_count = 0
      ∧ (cb.runCalls calls).success_count = 0
      ∧ (cb.runCalls calls).half_open_calls = 0 := by
  induction calls generalizing cb with
  | nil => exact absurd rfl hnz
  | cons c calls ih =>
    rw [runCalls_cons]
    have hc : c.2 = Outcome.success := hs c (by simp)
    have hfree : ¬ cb.half_open_max_calls ≤ cb.half_open_calls := by
      simp only [List.length_cons] at hm
      omega
    have hs2 : ({ cb with half_open_calls := cb.half_open_calls + 1 }
        : CircuitBreaker).state = .HALF_OPEN := hst
    rw [hc, call_success (admit_halfOpen_free hst hfree c.1)]
    by_cases hdone : cb.half_open_max_calls ≤ cb.success_count + 1
    · rw [recordSuccess_halfOpen_close hs2 hdone]
      have hcalls : calls = [] := by
        simp only [List.length_cons] at hm
        rcases calls with - | ⟨c2, calls⟩
        · rfl
        · simp only [List.length_cons] at hm
          omega
      subst hcalls
      simp
    · rw [recordSuccess_halfOpen_more hs2 hdone]
      apply ih
      · exact hst
      · show cb.success_count + 1 = cb.half_open_calls + 1 + 1
        omega
      · show cb.success_count + 1 + calls.length = cb.half_open_max_calls
        simp only [List.length_cons] at hm
        omega
      · intro x hx
        exact hs x (by simp [hx])
      · intro hcalls
        subst hcalls
        simp only [List.length_cons, List.length_nil] at hm
        omega

end CircuitBreaker

/-- **C2 (amended)** — the circuit breaker invariants, for a breaker with
failure-threshold `N`, recovery-timeout `T` and half-open-max-calls `K`:
(i) `N` consecutive tracked failures in `CLOSED` move it to `OPEN`;
(ii) while `OPEN`, a call before `T` has elapsed since the last failure is
rejected without invoking the wrapped function and without changing state;
(iii) once `T` has elapsed, the next call is admitted with the breaker
transitioned to `HALF_OPEN`;
(iv) a tracked failure on an admitted half-open call immediately reopens;
(v) in `HALF_OPEN`, once `K` probes have been counted further calls are
rejected unchanged;
(vi) in a run whose calls all have tracked outcomes, every half-open state
satisfies `success_count = half_open_calls + 1` with
`success_count < half_open_max_calls`;
(vii) `K` consecutive successes starting at the half-open transition return
the breaker to `CLOSED` with `failure_count`, `success_count` and
`half_open_calls` reset to zero;
(viii) a half-open episode started from `OPEN` invokes at most `K + 1`
probes for **arbitrary** outcomes — the open → half-open transition probe
is admitted without incrementing `half_open_calls` (the `elif` guard is not
re-checked after `_transition_to_half_open`), so with untracked exceptions
`K + 1` invocations are possible, and the claim's at-most-`K` bound fails
(see `C2_circuit_breaker_counterexample`);
(ix) when every outcome is tracked (and `K ≥ 1`), an episode invokes at
most `K` probes, recovering the claimed bound. -/
theorem C2_circuit_breaker (N : ℕ) (T : ℚ) (K : ℕ) :
    (∀ (cb : CircuitBreaker) (calls : List (ℚ × Outcome)),
        cb.state = .CLOSED → cb.failure_count = 0 →
        cb.failure_threshold = N → 1 ≤ N →
        (∀ c ∈ calls, c.2 = .failure) → calls.length = N →
        (cb.runCalls calls).state = .OPEN)
    ∧ (∀ (cb : CircuitBreaker) (now t : ℚ) (o : Outcome),
        cb.state = .OPEN → cb.last_failure_time = some t →
        now - t < cb.recovery_timeout →
        cb.call now o = (cb, false))
    ∧ (∀ (cb : CircuitBreaker) (now t : ℚ),
        cb.state = .OPEN → cb.last_failure_time = some t →
        cb.recovery_timeout ≤ now - t →
        cb.admitCall now = some cb.transitionToHalfOpen
          ∧ cb.transitionToHalfOpen.state = .HALF_OPEN)
    ∧ (∀ (cb : CircuitBreaker) (now : ℚ),
        cb.state = .HALF_OPEN → (cb.call now .failure).2 = true →
        (cb.call now .failure).1.state = .OPEN)
    ∧ (∀ (cb : CircuitBreaker) (now : ℚ) (o : Outcome),
        cb.state = .HALF_OPEN → cb.half_open_max_calls = K →
        K ≤ cb.half_open_calls →
        cb.call now o = (cb, false))
    ∧ (∀ calls : List (ℚ × Outcome),
        (∀ c ∈ calls, c.2 ≠ Outcome.untracked) →
        CircuitBreaker.HalfOpenInv ((mkCircuitBreaker N T K).runCalls calls))
    ∧ (∀ (cb : CircuitBreaker) (now t : ℚ) (ts : List ℚ),
        cb.state = .OPEN → cb.last_failure_time = some t →
        cb.recovery_timeout ≤ now - t →
        cb.half_open_max_calls = K → 1 ≤ K → ts.length = K - 1 →
        (cb.runCalls ((now, .success) :: ts.map (fun u => (u, .success)))).state
            = .CLOSED
          ∧ (cb.runCalls ((now, .success)
              :: ts.map (fun u => (u, .success)))).failure_count = 0
          ∧ (cb.runCalls ((now, .success)
              :: ts.map (fun u => (u, .success)))).success_count = 0
          ∧ (cb.runCalls ((now, .success)
              :: ts.map (fun u => (u, .success)))).half_open_calls = 0)
    ∧ (∀ (cb : CircuitBreaker) (calls : List (ℚ × Outcome)),
        cb.state = .OPEN → cb.half_open_max_calls = K →
        cb.episodeProbesFromOpen calls ≤ K + 1)
    ∧ (∀ (cb : CircuitBreaker) (calls : List (ℚ × Outcome)),
        cb.state = .OPEN → cb.half_open_max_calls = K → 1 ≤ K →
        (∀ c ∈ calls, c.2 ≠ Outcome.untracked) →
        cb.episodeProbesFromOpen calls ≤ K) := by
  refine ⟨?_, ?_, ?_, ?_, ?_, ?_, ?_, ?_, ?_⟩
  · intro cb calls hst hfc hth hN hf hlen
    apply CircuitBreaker.closed_failures_open calls cb hst hf
    · intro h
      subst h
      simp at hlen
      omega
    · omega
  · intro cb now t o hst hlf hlt
    apply CircuitBreaker.call_rejected
    apply CircuitBreaker.admit_open_stale hst
    rw [CircuitBreaker.shouldAttemptReset, hlf]
    exact decide_eq_false (not_le.mpr hlt)
  · intro cb now t hst hlf hdue
    refine ⟨CircuitBreaker.admit_open_due hst ?_, rfl⟩
    rw [CircuitBreaker.shouldAttemptReset, hlf]
    exact decide_eq_true hdue
  · intro cb now hst hinvoked
    by_cases hfull : cb.half_open_max_calls ≤ cb.half_open_calls
    · rw [CircuitBreaker.call_rejected
        (CircuitBreaker.admit_halfOpen_full hst hfull now)] at hinvoked
      simp at hinvoked
    · have hs : ({ cb with half_open_calls := cb.half_open_calls + 1 }
          : CircuitBreaker).state = .HALF_OPEN := hst
      rw [CircuitBreaker.call_failure
        (CircuitBreaker.admit_halfOpen_free hst hfull now),
        CircuitBreaker.recordFailure_halfOpen hs]
  · intro cb now o hst hK hfull
    exact CircuitBreaker.call_rejected
      (CircuitBreaker.admit_halfOpen_full hst (hK ▸ hfull) now) o
  · intro calls htr
    apply CircuitBreaker.runCalls_halfOpenInv calls _ htr
    intro h
    simp [mkCircuitBreaker] at h
  · intro cb now t ts hst hlf hdue hK hK1 hlen
    have hdue2 : cb.shouldAttemptReset now = true := by
      rw [CircuitBreaker.shouldAttemptReset, hlf]
      exact decide_eq_true hdue
    rw [CircuitBreaker.runCalls_cons,
      CircuitBreaker.call_success (CircuitBreaker.admit_open_due hst hdue2)]
    by_cases hone : cb.transitionToHalfOpen.half_open_max_calls
        ≤ cb.transitionToHalfOpen.success_count + 1
    · rw [CircuitBreaker.recordSuccess_halfOpen_close rfl hone]
      have hts : ts = [] := by
        simp only [CircuitBreaker.transitionToHalfOpen] at hone
        have hzero : ts.length = 0 := by omega
        exact List.length_eq_zero.mp hzero
      subst hts
      exact ⟨rfl, rfl, rfl, rfl⟩
    · rw [CircuitBreaker.recordSuccess_halfOpen_more rfl hone]
      apply CircuitBreaker.halfOpen_successes_close
      · rfl
      · rfl
      · show 0 + 1 + (ts.map (fun u => (u, Outcome.success))).length
            = cb.half_open_max_calls
        rw [List.length_map]
        simp only [CircuitBreaker.transitionToHalfOpen] at hone
        omega
      · intro x hx
        obtain ⟨u, -, rfl⟩ := List.mem_map.mp hx
        rfl
      · intro hnil
        have hts : ts = [] := List.map_eq_nil_iff.mp hnil
        simp only [CircuitBreaker.transitionToHalfOpen] at hone
        rw [hts] at hlen
        simp at hlen
        omega
  · intro cb calls hst hK
    exact hK ▸ CircuitBreaker.episodeProbesFromOpen_le calls cb hst
  · intro cb calls hst hK h1 htr
    exact hK ▸ CircuitBreaker.episodeProbesFromOpen_tracked_le calls cb hst
      (hK ▸ h1) htr

/-- An open breaker due for reset, configured with `half_open_max_calls = 1`
(threshold 3, timeout 60, last failure at instant 0). -/
def c2kOne : CircuitBreaker :=
  { mkCircuitBreaker 3 60 1 with
    state := .OPEN, failure_count := 3, last_failure_time := some 0 }

/-- **C2, counterexample** — the claim's "in half-open at most `K` probe
calls are admitted" is false once the untracked-exception branch of `call`
is modelled: from `c2kOne` (with `K = 1`), a call at instant 100 is admitted
as the open → half-open transition probe **without** incrementing
`half_open_calls` (the `elif` guard is not re-checked), and its untracked
exception leaves every episode counter at 0, so a second call at instant
100 is admitted as well — one half-open episode invokes `2 = K + 1`
wrapped-function calls. -/
theorem C2_circuit_breaker_counterexample :
    c2kOne.episodeProbesFromOpen
        [(100, .untracked), (100, .untracked)] = 2
      ∧ c2kOne.half_open_max_calls = 1 := by
  have hst : c2kOne.state = .OPEN := rfl
  have hdue : c2kOne.shouldAttemptReset 100 = true := by
    rw [CircuitBreaker.shouldAttemptReset]
    show decide ((60 : ℚ) ≤ 100 - 0) = true
    rw [decide_eq_true_eq]
    norm_num
  have hadm := CircuitBreaker.admit_open_due hst hdue
  constructor
  · rw [CircuitBreaker.episodeProbesFromOpen_cons, hadm]
    show 1 + (c2kOne.call 100 Outcome.untracked).1.episodeProbes
        [((100 : ℚ), Outcome.untracked)] = 2
    have hs1 : (c2kOne.call 100 Outcome.untracked).1.state = .HALF_OPEN := by
      rw [CircuitBreaker.call_untracked hadm]
      rfl
    have hfree : ¬ (c2kOne.call 100 Outcome.untracked).1.half_open_max_calls
        ≤ (c2kOne.call 100 Outcome.untracked).1.half_open_calls := by
      rw [CircuitBreaker.call_untracked hadm]
      show ¬ (1 : ℕ) ≤ 0
      omega
    have hadm2 := CircuitBreaker.admit_halfOpen_free hs1 hfree (100 : ℚ)
    rw [CircuitBreaker.episodeProbes_cons, if_pos hs1,
      CircuitBreaker.call_untracked hadm2]
    rfl
  · rfl

/-- A concrete open breaker for the C2 witness: threshold 3, timeout 60,
2 half-open probes, last failure at instant 0. -/
def c2open : CircuitBreaker :=
  { mkCircuitBreaker 3 60 2 with
    state := .OPEN, failure_count := 3, last_failure_time := some 0 }

/-- Witness for C2 at `c2open`: a call at instant 10 (before the 60-second
recovery timeout has elapsed) is rejected with the breaker unchanged. -/
theorem C2_circuit_breaker_witness :
    c2open.call 10 .success = (c2open, false) :=
  (C2_circuit_breaker 3 60 2).2.1 c2open 10 0 .success rfl rfl
    (by norm_num [c2open, mkCircuitBreaker])

/-! ## Pipeline event stream (`services/deepsearch/core/engine.py`,
`DeepSearchEngine.deep_search`)

The generator's event sequence, projected to the `type` field of each
`StreamChunk` (the claim is about event kinds only).  The stage calls
themselves catch their own exceptions, but the whole body sits in a
`try`/`except Exception` that yields one final `error` chunk, so the model
lets the environment inject one unexpected exception at any stage boundary
(`abort`); `none` means the run completes normally.  Response construction
after the `sources` yield is pure field packing and is assumed non-raising.
-/

inductive EventType where
  | progress
  | content
  | sources
  | complete
  | error
  deriving DecidableEq, Repr

/-- Where an unexpected exception (caught by the outer `except`) occurs:
during the scrape stage, the embed stage, the retrieve stage, the synthesis
stream after `n` fragments, or while finalising the sources/response. -/
inductive AbortPoint where
  | scrapeStage
  | embedStage
  | retrieveStage
  | synthesisAfter (n : ℕ)
  | finalizeStage
  deriving DecidableEq, Repr

/-- The run's environment: request flags, config flags, and what each opaque
stage returns. -/
structure PipelineEnv where
  searchResults : List SearchResult
  enable_scraping : Bool
  cfg_scraping_enabled : Bool
  scrapedContent : List ScrapedContent
  enable_rag : Bool
  cfg_rag_enabled : Bool
  enable_synthesis : Bool
  synthChunks : List String
  abort : Option AbortPoint

/-- `DeepSearchEngine.deep_search`, event kinds only, in source order:
progress(searching); error-return on empty results; progress(scraping) when
scraping runs; progress(embedding) when RAG is on and scraped content is
non-empty; progress(retrieving) when RAG is on; progress(synthesizing) and
one `content` per streamed fragment when synthesis is on; then `sources`
and `complete`.  An `abort` at a stage that actually runs cuts the stream
there with a single `error` from the outer `except`. -/
def deepSearch (env : PipelineEnv) : List EventType :=
  EventType.progress ::
  (if env.searchResults.isEmpty then [EventType.error]
   else
     let doScrape := env.enable_scraping && env.cfg_scraping_enabled
     let scrapeEvents : List EventType :=
       if doScrape then [EventType.progress] else []
     if doScrape && (env.abort == some .scrapeStage) then
       scrapeEvents ++ [EventType.error]
     else
       let scraped := if doScrape then env.scrapedContent else []
       let doEmbed := env.enable_rag && env.cfg_rag_enabled && !scraped.isEmpty
       let embedEvents : List EventType :=
         if doEmbed then [EventType.progress] else []
       if doEmbed && (env.abort == some .embedStage) then
         scrapeEvents ++ embedEvents ++ [EventType.error]
       else
         let doRetrieve := env.enable_rag && env.cfg_rag_enabled
         let retrieveEvents : List EventType :=
           if doRetrieve then [EventType.progress] else []
         if doRetrieve && (env.abort == some .retrieveStage) then
           scrapeEvents ++ embedEvents ++ retrieveEvents ++ [EventType.error]
         else
           if env.enable_synthesis then
             match env.abort with
             | some (.synthesisAfter n) =>
                 scrapeEvents ++ embedEvents ++ retrieveEvents
                   ++ (EventType.progress
                        :: (env.synthChunks.take n).map
                             (fun _ => EventType.content))
                   ++ [EventType.error]
             | some .finalizeStage =>
                 scrapeEvents ++ embedEvents ++ retrieveEvents
                   ++ (EventType.progress
                        :: env.synthChunks.map (fun _ => EventType.content))
                   ++ [EventType.error]
             | _ =>
                 scrapeEvents ++ embedEvents ++ retrieveEvents
                   ++ (EventType.progress
                        :: env.synthChunks.map (fun _ => EventType.content))
                   ++ [EventType.sources, EventType.complete]
           else
             match env.abort with
             | some .finalizeStage =>
                 scrapeEvents ++ embedEvents ++ retrieveEvents
                   ++ [EventType.error]
             | _ =>
                 scrapeEvents ++ embedEvents ++ retrieveEvents
                   ++ [EventType.sources, EventType.complete])

/-- `content* sources complete` — the tail of the claim's regular
expression, with no `error` alternative. -/
def afterContentClaim : List EventType → Bool
  | [.sources, .complete] => true
  | .content :: rest => afterContentClaim rest
  | _ => false

def matchRestClaim : List EventType → Bool
  | .progress :: rest => matchRestClaim rest
  | tr => afterContentClaim tr

/-- The claim's regular expression, as written:
`progress+ (content* sources complete) | error`. -/
def matchesClaimRegex : List EventType → Bool
  | .progress :: rest => matchRestClaim rest
  | [.error] => true
  | _ => false

/-- `content* (sources complete | error)` — the amended tail. -/
def afterContent : List EventType → Bool
  | [.sources, .complete] => true
  | [.error] => true
  | .content :: rest => afterContent rest
  | _ => false

def matchRest : List EventType → Bool
  | .progress :: rest => matchRest rest
  | tr => afterContent tr

/-- The amended regular expression:
`progress+ (content* (sources complete | error))`. -/
def matchesAmendedRegex : List EventType → Bool
  | .progress :: rest => matchRest rest
  | _ => false

def isTerminal (e : EventType) : Bool :=
  e == EventType.complete || e == EventType.error

/-- Exactly one terminal event, in final position. -/
def exactlyOneTerminal : List EventType → Bool
  | [] => false
  | e :: rest => if isTerminal e then rest.isEmpty else exactlyOneTerminal rest

theorem afterContent_contents (l : List String)
    (tail : List EventType)
    (htail : tail = [EventType.sources, EventType.complete]
      ∨ tail = [EventType.error]) :
    afterContent (l.map (fun _ => EventType.content) ++ tail) = true := by
  induction l with
  | nil =>
    rcases htail with rfl | rfl <;> rfl
  | cons a l ih =>
    simpa [afterContent] using ih

theorem exactlyOneTerminal_contents (l : List String)
    (tail : List EventType)
    (htail : tail = [EventType.sources, EventType.complete]
      ∨ tail = [EventType.error]) :
    exactlyOneTerminal (l.map (fun _ => EventType.content) ++ tail) = true := by
  induction l with
  | nil =>
    rcases htail with rfl | rfl <;> rfl
  | cons a l ih =>
    simpa [exactlyOneTerminal, isTerminal] using ih

theorem matchRest_progressIf (b : Bool) (rest : List EventType) :
    matchRest ((if b then [EventType.progress] else []) ++ rest)
      = matchRest rest := by
  cases b <;> simp [matchRest]

theorem exactlyOneTerminal_progressIf (b : Bool) (rest : List EventType) :
    exactlyOneTerminal ((if b then [EventType.progress] else []) ++ rest)
      = exactlyOneTerminal rest := by
  cases b <;> simp [exactlyOneTerminal, isTerminal]

theorem matchRest_tail (tail : List EventType)
    (htail : tail = [EventType.sources, EventType.complete]
      ∨ tail = [EventType.error]) :
    matchRest tail = true := by
  rcases htail with rfl | rfl <;> rfl

theorem exactlyOneTerminal_tail (tail : List EventType)
    (htail : tail = [EventType.sources, EventType.complete]
      ∨ tail = [EventType.error]) :
    exactlyOneTerminal tail = true := by
  rcases htail with rfl | rfl <;> rfl

theorem matchRest_contents (l : List String) (tail : List EventType)
    (htail : tail = [EventType.sources, EventType.complete]
      ∨ tail = [EventType.error]) :
    matchRest (l.map (fun _ => EventType.content) ++ tail) = true := by
  induction l with
  | nil =>
    simp only [List.map_nil, List.nil_append]
    exact matchRest_tail tail htail
  | cons a l ih =>
    simp only [List.map_cons, List.cons_append, matchRest, afterContent]
    exact afterContent_contents l tail htail

theorem matchRest_synth (l : List String) (tail : List EventType)
    (htail : tail = [EventType.sources, EventType.complete]
      ∨ tail = [EventType.error]) :
    matchRest ((EventType.progress :: l.map (fun _ => EventType.content))
        ++ tail) = true := by
  simp only [List.cons_append, matchRest]
  exact matchRest_contents l tail htail

theorem exactlyOneTerminal_synth (l : List String) (tail : List EventType)
    (htail : tail = [EventType.sources, EventType.complete]
      ∨ tail = [EventType.error]) :
    exactlyOneTerminal
        ((EventType.progress :: l.map (fun _ => EventType.content)) ++ tail)
      = true := by
  simp only [List.cons_append, exactlyOneTerminal, isTerminal]
  simpa using exactlyOneTerminal_contents l tail htail

/-- A trace tail that completes the amended pattern after the leading
`progress` and ends in exactly one terminal event. -/
def GoodTrace (tr : List EventType) : Prop :=
  matchRest tr = true ∧ exactlyOneTerminal tr = true

theorem goodTrace_blocks (b : Bool) (rest : List EventType)
    (h : GoodTrace rest) :
    GoodTrace ((if b then [EventType.progress] else []) ++ rest) :=
  ⟨by rw [matchRest_progressIf]; exact h.1,
   by rw [exactlyOneTerminal_progressIf]; exact h.2⟩

theorem goodTrace_tail (tail : List EventType)
    (htail : tail = [EventType.sources, EventType.complete]
      ∨ tail = [EventType.error]) : GoodTrace tail :=
  ⟨matchRest_tail tail htail, exactlyOneTerminal_tail tail htail⟩

theorem goodTrace_contents (l : List String) (tail : List EventType)
    (htail : tail = [EventType.sources, EventType.complete]
      ∨ tail = [EventType.error]) :
    GoodTrace (l.map (fun _ => EventType.content) ++ tail) :=
  ⟨matchRest_contents l tail htail, exactlyOneTerminal_contents l tail htail⟩

theorem goodTrace_progress_cons (rest : List EventType)
    (h : GoodTrace rest) : GoodTrace (EventType.progress :: rest) :=
  ⟨h.1, h.2⟩

/-- **C1 (counterexample)** — The emitted sequence does not always match
`progress+ (content* sources complete) | error`: a run whose search stage
returns no results emits `progress` then `error`, which matches neither
alternative of that regular expression (the `error` alternative stands
alone, with no preceding `progress`). -/
theorem C1_deep_search_counterexample :
    deepSearch { searchResults := [], enable_scraping := true
                 cfg_scraping_enabled := true, scrapedContent := []
                 enable_rag := true, cfg_rag_enabled := true
                 enable_synthesis := true, synthChunks := [], abort := none }
        = [EventType.progress, EventType.error]
    ∧ matchesClaimRegex [EventType.progress, EventType.error] = false :=
  ⟨rfl, rfl⟩

/-- **C1 (amended)** — For every pipeline run, the emitted event sequence
matches `progress+ (content* (sources complete | error))`: one or more
progress events, then optionally content fragments, then either exactly one
`sources` followed by exactly one `complete`, or one terminating `error`;
the stream terminates with exactly one of `complete` or `error` and no
event follows the terminal one. -/
theorem C1_deep_search_events (env : PipelineEnv) :
    matchesAmendedRegex (deepSearch env) = true
      ∧ exactlyOneTerminal (deepSearch env) = true := by
  have hlift : ∀ tr : List EventType, GoodTrace tr →
      matchesAmendedRegex (EventType.progress :: tr) = true
        ∧ exactlyOneTerminal (EventType.progress :: tr) = true :=
    fun tr h => ⟨h.1, h.2⟩
  rw [deepSearch]
  apply hlift
  simp only [List.append_assoc]
  repeat' split
  all_goals try simp only [List.nil_append, List.cons_append, List.append_assoc]
  all_goals
    repeat
      first
      | exact goodTrace_tail _ (Or.inl rfl)
      | exact goodTrace_tail _ (Or.inr rfl)
      | exact goodTrace_contents _ _ (Or.inl rfl)
      | exact goodTrace_contents _ _ (Or.inr rfl)
      | apply goodTrace_progress_cons

/-! ## Search-provider response parsers
(`services/search-gateway/providers/provider_manager.py`)

Each parser projects a well-shaped back-end payload into `SearchResult`s,
attaching `confidence = static provider weight × per-parser factor`.  The
payload types mirror exactly the fields each parser reads; an ill-shaped
payload raises inside `query_provider`'s `try` and produces no results, so
it is irrelevant to a claim quantifying over produced results.
`html.unescape` is an opaque stdlib call, abstracted as a parameter. -/

namespace ProviderManager

inductive SearchProvider where
  | WHOOGLE
  | SEARXNG
  | YACY
  | WIKIPEDIA
  | DUCKDUCKGO
  | STACKEXCHANGE
  | ARXIV
  deriving DecidableEq, Repr

/-- The static `weight` of each entry of `self.providers` in
`SearchProviderManager.__init__`. -/
def providerWeight : SearchProvider → ℚ
  | .WHOOGLE => 1
  | .SEARXNG => 1
  | .YACY => 8/10
  | .WIKIPEDIA => 12/10
  | .DUCKDUCKGO => 11/10
  | .STACKEXCHANGE => 12/10
  | .ARXIV => 12/10

/-- Python truthiness of `d.get(key)` for a string field: present and
non-empty. -/
def truthyStr (o : Option String) : Bool :=
  match o with
  | some s => decide (s ≠ "")
  | none => false

structure WhoogleItem where
  title : Option String := none
  url : Option String := none
  snippet : Option String := none

/-- `_parse_whoogle`; `none` models a payload that is not a dict or has no
`results` key (the guard returns `[]`). -/
def parse_whoogle (data : Option (List WhoogleItem)) (w : ℚ) :
    List SearchResult :=
  match data with
  | none => []
  | some items =>
      (items.filter (fun i => truthyStr i.url)).map (fun i =>
        { title := i.title.getD "", url := i.url.getD ""
          description := i.snippet.getD "", source := "whoogle"
          confidence := w })

structure SearxngItem where
  title : Option String := none
  url : Option String := none
  content : Option String := none

/-- `_parse_searxng` on the items of `data.get("results", [])`. -/
def parse_searxng (items : List SearxngItem) (w : ℚ) : List SearchResult :=
  (items.filter (fun i => truthyStr i.url)).map (fun i =>
    { title := i.title.getD "", url := i.url.getD ""
      description := i.content.getD "", source := "searxng"
      confidence := w })

structure YacyItem where
  title : Option String := none
  link : Option String := none
  description : Option String := none

/-- `_parse_yacy` on the items of the first channel. -/
def parse_yacy (items : List YacyItem) (w : ℚ) : List SearchResult :=
  (items.filter (fun i => truthyStr i.link)).map (fun i =>
    { title := i.title.getD "", url := i.link.getD ""
      description := i.description.getD "", source := "yacy"
      confidence := w * (8/10) })

/-- One scan step of `re.sub(r'<.*?>', '', s)`: after a `<`, consume up to
the first `>` provided no newline intervenes (`.` does not match `\n`). -/
def dropTag : List Char → Option (List Char)
  | [] => none
  | c :: rest =>
      if c = '>' then some rest
      else if c = '\n' then none
      else dropTag rest

theorem dropTag_length_lt :
    ∀ (l l₂ : List Char), dropTag l = some l₂ → l₂.length < l.length := by
  intro l
  induction l with
  | nil => intro l₂ h; simp [dropTag] at h
  | cons c rest ih =>
    intro l₂ h
    rw [dropTag] at h
    split at h
    · cases h
      simp
    · split at h
      · cases h
      · have := ih l₂ h
        simp
        omega

/-- `re.sub(r'<.*?>', '', s)` on the character list. -/
def stripTagsAux : List Char → List Char
  | [] => []
  | c :: rest =>
      if c = '<' then
        match h : dropTag rest with
        | some rest₂ => stripTagsAux rest₂
        | none => c :: stripTagsAux rest
      else c :: stripTagsAux rest
termination_by l => l.length
decreasing_by
  · have := dropTag_length_lt rest rest₂ h
    simp
    omega
  · simp
  · simp

def stripTags (s : String) : String := ⟨stripTagsAux s.data⟩

structure WikiItem where
  title : Option String := none
  snippet : Option String := none

/-- `_parse_wikipedia` on the items of `data["query"]["search"]`. -/
def parse_wikipedia (items : List WikiItem) (w : ℚ) : List SearchResult :=
  items.map (fun i =>
    { title := i.title.getD ""
      url := "https://en.wikipedia.org/wiki/"
        ++ (i.title.getD "").replace " " "_"
      description := stripTags (i.snippet.getD ""), source := "wikipedia"
      confidence := w * (12/10) })

/-- A DuckDuckGo related topic: `FirstURL`, `Text`, and the nested `Topics`
list (key absent is modelled as the empty list — `extend([])` is a no-op). -/
inductive DDGTopic where
  | mk (firstURL text : Option String) (subtopics : List DDGTopic)

def DDGTopic.firstURL : DDGTopic → Option String
  | .mk f _ _ => f

def DDGTopic.text : DDGTopic → Option String
  | .mk _ t _ => t

def DDGTopic.subtopics : DDGTopic → List DDGTopic
  | .mk _ _ s => s

theorem list_sizeOf_append {α : Type} [SizeOf α] :
    ∀ (l₁ l₂ : List α), sizeOf (l₁ ++ l₂) + 1 = sizeOf l₁ + sizeOf l₂ := by
  intro l₁ l₂
  induction l₁ with
  | nil => simp; omega
  | cons a l ih =>
    simp only [List.cons_append, List.cons.sizeOf_spec]
    omega

/-- The `for topic in topics` loop of `_parse_duckduckgo`:
`topics.extend(topic["Topics"])` appends to the very list being iterated,
which is worklist (queue) processing. -/
def processTopics (w : ℚ) : List DDGTopic → List SearchResult
  | [] => []
  | t :: rest =>
      (if truthyStr t.firstURL && truthyStr t.text then
        [{ title := ((t.text.getD "").splitOn " - ").headI
           url := t.firstURL.getD ""
           description := t.text.getD "", source := "duckduckgo"
           confidence := w }]
      else [])
      ++ processTopics w (rest ++ t.subtopics)
termination_by queue => sizeOf queue
decreasing_by
  have h1 := list_sizeOf_append rest t.subtopics
  rcases t with ⟨f, x, subs⟩
  simp only [DDGTopic.subtopics] at h1 ⊢
  simp only [List.cons.sizeOf_spec, DDGTopic.mk.sizeOf_spec]
  omega

structure DDGPayload where
  relatedTopics : List DDGTopic := []
  heading : Option String := none
  abstractURL : Option String := none
  abstractText : Option String := none

/-- `_parse_duckduckgo`; `none` models a non-dict payload. -/
def parse_duckduckgo (data : Option DDGPayload) (w : ℚ) : List SearchResult :=
  match data with
  | none => []
  | some d =>
      processTopics w d.relatedTopics
        ++ (if truthyStr d.abstractURL && truthyStr d.abstractText then
              [{ title := d.heading.getD "Abstract"
                 url := d.abstractURL.getD ""
                 description := d.abstractText.getD ""
                 source := "duckduckgo", confidence := w * (11/10) }]
            else [])

structure StackExchangeOwner where
  display_name : Option String := none

structure StackExchangeItem where
  title : Option String := none
  link : Option String := none
  score : ℤ := 0
  answer_count : ℤ := 0
  owner : Option StackExchangeOwner := none

/-- `_parse_stackexchange`; `unescape` is `html.unescape`, opaque. -/
def parse_stackexchange (unescape : String → String)
    (items : List StackExchangeItem) (w : ℚ) : List SearchResult :=
  items.map (fun item =>
    { title := unescape (item.title.getD ""), url := item.link.getD ""
      description := "Score: " ++ toString item.score
        ++ ", Answers: " ++ toString item.answer_count
        ++ ". By: " ++ ((item.owner.bind (fun o => o.display_name)).getD "N/A")
      source := "stackexchange", confidence := w * (12/10) })

structure ArxivEntry where
  title : String
  id : String
  summary : String

/-- `_parse_arxiv` after the XML feed is parsed; `none` models a payload
without the XML prolog or one that fails `ET.fromstring` (both return `[]`).
Each entry carries the `.text` of its `title`, `id` and `summary` nodes. -/
def parse_arxiv (entries : Option (List ArxivEntry)) (w : ℚ) :
    List SearchResult :=
  match entries with
  | none => []
  | some es =>
      es.map (fun e =>
        { title := ((e.title.trim).replace "\n" " ").replace "  " " "
          url := e.id.trim
          description := (e.summary.trim).replace "\n" " "
          source := "arxiv", confidence := w * (13/10) })

theorem processTopics_confidence (w : ℚ) :
    ∀ (queue : List DDGTopic) (r : SearchResult),
      r ∈ processTopics w queue → r.confidence = w := by
  intro queue
  induction queue using processTopics.induct w with
  | case1 => intro r hr; simp [processTopics] at hr
  | case2 t rest ih =>
    intro r hr
    rw [processTopics] at hr
    rcases List.mem_append.mp hr with h | h
    · split at h
      · simp at h
        subst h
        rfl
      · simp at h
    · exact ih r h

end ProviderManager

/-- **C9 (counterexample)** — "every parsed SearchResult has confidence in
[0,1]" is false: the arXiv parser attaches `1.2 × 1.3 = 1.56 > 1` to every
entry it parses. -/
theorem C9_parser_confidence_counterexample :
    (ProviderManager.parse_arxiv
        (some [{ title := "T", id := "http://arxiv.org/abs/1", summary := "S" }])
        (ProviderManager.providerWeight .ARXIV)).map SearchResult.confidence
      = [39/25]
    ∧ ¬ ((39 : ℚ)/25 ≤ 1) := by
  constructor
  · show [(12 : ℚ)/10 * (13/10)] = [39/25]
    norm_num
  · norm_num

/-- **C9 (amended)** — For every search-provider adapter and every
(well-shaped) back-end payload, every `SearchResult` produced by the
adapter's response parser — which attaches the per-provider static weight
times a fixed per-parser factor to `confidence` — has confidence in the
interval `[0, 39/25]` (`39/25 = 1.56`, reached by the arXiv parser); the
upper end exceeds 1, so the interval `[0,1]` of the original claim does not
hold. -/
theorem C9_parser_confidence :
    (∀ (data : Option (List ProviderManager.WhoogleItem)) r,
      r ∈ ProviderManager.parse_whoogle data
        (ProviderManager.providerWeight .WHOOGLE) →
      0 ≤ r.confidence ∧ r.confidence ≤ 39/25)
    ∧ (∀ (items : List ProviderManager.SearxngItem) r,
        r ∈ ProviderManager.parse_searxng items
          (ProviderManager.providerWeight .SEARXNG) →
        0 ≤ r.confidence ∧ r.confidence ≤ 39/25)
    ∧ (∀ (items : List ProviderManager.YacyItem) r,
        r ∈ ProviderManager.parse_yacy items
          (ProviderManager.providerWeight .YACY) →
        0 ≤ r.confidence ∧ r.confidence ≤ 39/25)
    ∧ (∀ (items : List ProviderManager.WikiItem) r,
        r ∈ ProviderManager.parse_wikipedia items
          (ProviderManager.providerWeight .WIKIPEDIA) →
        0 ≤ r.confidence ∧ r.confidence ≤ 39/25)
    ∧ (∀ (data : Option ProviderManager.DDGPayload) r,
        r ∈ ProviderManager.parse_duckduckgo data
          (ProviderManager.providerWeight .DUCKDUCKGO) →
        0 ≤ r.confidence ∧ r.confidence ≤ 39/25)
    ∧ (∀ (unescape : String → String)
        (items : List ProviderManager.StackExchangeItem) r,
        r ∈ ProviderManager.parse_stackexchange unescape items
          (ProviderManager.providerWeight .STACKEXCHANGE) →
        0 ≤ r.confidence ∧ r.confidence ≤ 39/25)
    ∧ (∀ (entries : Option (List ProviderManager.ArxivEntry)) r,
        r ∈ ProviderManager.parse_arxiv entries
          (ProviderManager.providerWeight .ARXIV) →
        0 ≤ r.confidence ∧ r.confidence ≤ 39/25) := by
  refine ⟨?_, ?_, ?_, ?_, ?_, ?_, ?_⟩
  · rintro (- | items) r hr
    · simp [ProviderManager.parse_whoogle] at hr
    · rw [ProviderManager.parse_whoogle] at hr
      obtain ⟨i, -, rfl⟩ := List.mem_map.mp hr
      norm_num [ProviderManager.providerWeight]
  · intro items r hr
    rw [ProviderManager.parse_searxng] at hr
    obtain ⟨i, -, rfl⟩ := List.mem_map.mp hr
    norm_num [ProviderManager.providerWeight]
  · intro items r hr
    rw [ProviderManager.parse_yacy] at hr
    obtain ⟨i, -, rfl⟩ := List.mem_map.mp hr
    norm_num [ProviderManager.providerWeight]
  · intro items r hr
    rw [ProviderManager.parse_wikipedia] at hr
    obtain ⟨i, -, rfl⟩ := List.mem_map.mp hr
    norm_num [ProviderManager.providerWeight]
  · rintro (- | d) r hr
    · simp [ProviderManager.parse_duckduckgo] at hr
    · rw [ProviderManager.parse_duckduckgo] at hr
      rcases List.mem_append.mp hr with h | h
      · have hc := ProviderManager.processTopics_confidence _ _ r h
        rw [hc]
        norm_num [ProviderManager.providerWeight]
      · split at h
        · simp at h
          subst h
          norm_num [ProviderManager.providerWeight]
        · simp at h
  · intro unescape items r hr
    rw [ProviderManager.parse_stackexchange] at hr
    obtain ⟨i, -, rfl⟩ := List.mem_map.mp hr
    norm_num [ProviderManager.providerWeight]
  · rintro (- | es) r hr
    · simp [ProviderManager.parse_arxiv] at hr
    · rw [ProviderManager.parse_arxiv] at hr
      obtain ⟨e, -, rfl⟩ := List.mem_map.mp hr
      norm_num [ProviderManager.providerWeight]

/-- The arXiv output list for the C9 witness. -/
def c9arxivOut : List SearchResult :=
  ProviderManager.parse_arxiv
    (some [{ title := "T", id := "http://arxiv.org/abs/1", summary := "S" }])
    (ProviderManager.providerWeight .ARXIV)

/-- Witness for C9 (amended): every result parsed from the concrete arXiv
feed has confidence within `[0, 39/25]`. -/
theorem C9_parser_confidence_witness :
    c9arxivOut.all (fun r =>
      decide (0 ≤ r.confidence) && decide (r.confidence ≤ 39/25)) = true := by
  rw [List.all_eq_true]
  intro r hr
  have h := C9_parser_confidence.2.2.2.2.2.2
    (some [{ title := "T", id := "http://arxiv.org/abs/1", summary := "S" }])
    r hr
  rw [Bool.and_eq_true, decide_eq_true_eq, decide_eq_true_eq]
  exact h

end DeepSearchStack
